import Mathlib

/-!
Verification of the immutable-core method invocation pipeline.

The development shallowly embeds the relevant parts of the source
(`lib/immutable-core-module.js` and `lib/immutable-core.js`) into Lean:
JavaScript values become an inductive type, the promise chain of the
method wrapper becomes sequential evaluation returning an `Except`
together with an explicit event trace, and the mutable session/stack
plumbing is modelled with an explicit heap of stack arrays.
-/

set_option maxRecDepth 10000

namespace ImmutableCore

/-! ## JavaScript value model -/

mutual

/-- A JavaScript value as used by the pipeline: `undefined`, `null`,
booleans, numbers, strings and plain objects (ordered field lists). -/
inductive JsValue where
  | undef : JsValue
  | null : JsValue
  | bool (b : Bool) : JsValue
  | num (n : Int) : JsValue
  | str (s : String) : JsValue
  /-- String arrays appear only as `session.stack` values. -/
  | strArr (xs : List String) : JsValue
  | obj (fields : JsFields) : JsValue
deriving DecidableEq

/-- Ordered own-property list of a JavaScript object. -/
inductive JsFields where
  | nil : JsFields
  | cons (key : String) (value : JsValue) (rest : JsFields) : JsFields
deriving DecidableEq

end

namespace JsValue

/-- `typeof v === 'object' && v !== null` restricted to plain objects. -/
def isObj : JsValue → Bool
  | .obj _ => true
  | _ => false

/-- `v === undefined`. -/
def isUndef : JsValue → Bool
  | .undef => true
  | _ => false

/-- `v === null`. -/
def isNull : JsValue → Bool
  | .null => true
  | _ => false

/-- JavaScript truthiness. -/
def truthy : JsValue → Bool
  | .undef => false
  | .null => false
  | .bool b => b
  | .num n => n != 0
  | .str s => s != ""
  | .strArr _ => true
  | .obj _ => true

/-- The string produced by the `typeof` operator. -/
def typeName : JsValue → String
  | .undef => "undefined"
  | .null => "object"
  | .bool _ => "boolean"
  | .num _ => "number"
  | .str _ => "string"
  | .strArr _ => "object"
  | .obj _ => "object"

end JsValue

namespace JsFields

/-- Look up an own property; absent properties read as `undefined`. -/
def get : JsFields → String → JsValue
  | .nil, _ => .undef
  | .cons k v rest, key => if k = key then v else get rest key

/-- Whether a key is present as an own property. -/
def has : JsFields → String → Bool
  | .nil, _ => false
  | .cons k _ rest, key => k = key || has rest key

/-- Property assignment `o[key] = v`: replaces in place or appends. -/
def set : JsFields → String → JsValue → JsFields
  | .nil, key, v => .cons key v .nil
  | .cons k w rest, key, v =>
      if k = key then .cons k v rest else .cons k w (set rest key v)

/-- `delete o[key]`. -/
def del : JsFields → String → JsFields
  | .nil, _ => .nil
  | .cons k w rest, key =>
      if k = key then del rest key else .cons k w (del rest key)

end JsFields

namespace JsValue

/-- Property read `v[key]`, `undefined` on non-objects. -/
def get : JsValue → String → JsValue
  | .obj fs, key => fs.get key
  | _, _ => (.undef)

/-- Property assignment on an object value; identity on non-objects. -/
def set : JsValue → String → JsValue → JsValue
  | .obj fs, key, v => .obj (fs.set key v)
  | v, _, _ => v

end JsValue

/-! ## lodash `_.merge` (deep merge, source wins) -/

mutual

/-- `_.merge(dst, src)` on two values: recursive object merge, source
replaces otherwise. Only ever applied to two objects by the pipeline. -/
def deepMerge : JsValue → JsValue → JsValue
  | .obj dst, .obj src => .obj (mergeFields dst src)
  | _, src => src
termination_by a b => (sizeOf b, sizeOf a)

/-- Merge every field of `src` into `dst` in order. -/
def mergeFields : JsFields → JsFields → JsFields
  | dst, .nil => dst
  | dst, .cons k v rest => mergeFields (mergeField dst k v) rest
termination_by dst src => (sizeOf src, sizeOf dst)

/-- Merge a single source field into `dst`: recursive merge when both
sides are objects, assignment for other defined values, and `undefined`
source values are skipped (lodash semantics). -/
def mergeField : JsFields → String → JsValue → JsFields
  | .nil, k, v => if v.isUndef then .nil else .cons k v .nil
  | .cons k' v' dst, k, v =>
      if k' = k then
        if v'.isObj && v.isObj then .cons k' (deepMerge v' v) dst
        else if !v.isUndef then .cons k' v dst
        else .cons k' v' dst
      else .cons k' v' (mergeField dst k v)
termination_by dst _ v => (sizeOf v, sizeOf dst)

end

/-! ## Errors, events, method metadata -/

/-- An `Error` value: message plus the structured `data` payload the
pipeline attaches (`error.data = ajv.errors` for validation errors). -/
structure JsError where
  message : String
  data : JsValue
deriving DecidableEq

/-- A settled promise: resolved value or rejection. -/
abbrev CallResult := Except JsError JsValue

instance {ε α : Type} [DecidableEq ε] [DecidableEq α] : DecidableEq (Except ε α) := fun a b =>
  match a, b with
  | .ok x, .ok y =>
      if h : x = y then .isTrue (by rw [h]) else .isFalse (fun hh => h (Except.ok.inj hh))
  | .error x, .error y =>
      if h : x = y then .isTrue (by rw [h])
      else .isFalse (fun hh => h (Except.error.inj hh))
  | .ok _, .error _ => .isFalse (fun hh => Except.noConfusion hh)
  | .error _, .ok _ => .isFalse (fun hh => Except.noConfusion hh)

/-- Observable events of one call, used to model the side effects of the
promise chain: log emissions, cache traffic, and which post-processing
steps of the source actually execute. -/
inductive PipeEvent where
  | moduleCall (args : JsValue)
  /-- Emitted each time the pipeline invokes a bound extension, with the
  args object handed to it. -/
  | extCall (bindType : String) (args : JsValue)
  /-- The underlying implementation is invoked. -/
  | implCall (args : JsValue)
  /-- `args = _.cloneDeep(args); deepFreeze(args)` ran (freeze option). -/
  | freezeArgs
  /-- the settled result was `_.cloneDeep`d (freeze option). -/
  | cloneResult
  /-- `deepResolve` ran on an object result (resolve option). -/
  | deepResolveResult
  /-- `validateReturn` was called on the settled result. -/
  | validateReturnCall
  | cacheGet (key : String)
  | cacheSet (key : String) (v : JsValue)
  | cacheSetex (key : String) (v : JsValue) (expire : JsValue)
  /-- `logClient.error(err, session)` for a detached-extension failure. -/
  | logError (message : String)
  | moduleCallResolve (resolved : Bool)
deriving DecidableEq

/-- A bound extension as seen by the pipeline: a wrapped method called
with `(args, bindSignature, bindType)`; it settles with a result and the
trace of observable events its own execution produced. -/
abbrev ExtFun := JsValue → String → String → CallResult × List PipeEvent


/-- A cache rule: optional custom key function, optional key-parameter
subset, expiry, and the cache client's `get` behaviour for this call. -/
structure CacheSpec where
  keyMethod : Option (JsValue → String)
  keyParams : Option (List String)
  expire : JsValue
  get : String → CallResult

/-- Method metadata as built by `ImmutableCoreModule.method`: resolved
option values, the implementation, the validator capability, and the
extension lists appended to by `bind` (empty list = no extensions). -/
structure MethodMeta where
  moduleName : String
  methodName : String
  strictArgs : Bool
  resolve : Bool
  freeze : Bool
  validateArgs : Bool
  validateReturn : Bool
  hasArgsSchema : Bool
  hasReturnSchema : Bool
  /-- `ajv.validate(schema.args.id, v)` outcome. -/
  argsValid : JsValue → Bool
  /-- `ajv.validate(schema.return.id, v)` outcome. -/
  returnValid : JsValue → Bool
  /-- `ajv.errorsText()` of the validator. -/
  errorsText : String
  /-- `ajv.errors` structured details of the validator. -/
  ajvErrors : JsValue
  method : JsValue → CallResult
  before : List ExtFun
  beforeDetach : List ExtFun
  after : List ExtFun
  afterDetach : List ExtFun
  withE : List ExtFun
  withDetach : List ExtFun
  cache : Option CacheSpec
  logClient : Bool

/-- `ModuleName.methodName`. -/
def MethodMeta.signature (m : MethodMeta) : String :=
  m.moduleName ++ "." ++ m.methodName

/-- The valid bind types of the source's `bindTypes` table. -/
def bindTypesList : List String :=
  ["after", "afterDetach", "before", "beforeDetach", "with", "withDetach"]

/-- `bindTypes[bindType]` on the optional third wrapper argument. -/
def isBindType : Option String → Bool
  | some t => bindTypesList.contains t
  | none => false

/-- First rejection of a `Promise.all` join, in start order. -/
def firstError : List CallResult → Option JsError
  | [] => none
  | .error e :: _ => some e
  | .ok _ :: rest => firstError rest

/-- Resolved values of a settled `Promise.all` join. -/
def okValues : List CallResult → List JsValue
  | [] => []
  | .error _ :: rest => okValues rest
  | .ok v :: rest => v :: okValues rest

/-! ## stable-id (external collaborator, modelled as an injective
content encoding; claims depend only on key determinism, not on the
concrete hash) -/

mutual

/-- Content serialisation standing in for the `stable-id` hash. -/
def encodeValue : JsValue → String
  | .undef => "u"
  | .null => "z"
  | .bool b => if b then "T" else "F"
  | .num n => "n(" ++ toString n ++ ")"
  | .str s => "s(" ++ s ++ ")"
  | .strArr xs => "a(" ++ String.intercalate "," xs ++ ")"
  | .obj fs => "o(" ++ encodeFields fs ++ ")"

/-- Serialise an object's fields in order. -/
def encodeFields : JsFields → String
  | .nil => ""
  | .cons k v rest => k ++ ":" ++ encodeValue v ++ ";" ++ encodeFields rest

end

/-- `stableId(obj)` from the npm `stable-id` collaborator. -/
def stableId (v : JsValue) : String := encodeValue v

/-! ## getValidArgs and the per-call context -/

/-- Output of `randomUniqueId()`: id plus micro timestamp. -/
structure UniqueId where
  id : String
  timestamp : String
deriving DecidableEq

/-- `!v || typeof v !== 'object'`: the args/session validity test. -/
def notAnObject (v : JsValue) : Bool :=
  !v.truthy || v.typeName != "object"

/-- `_.pick(args, keyParams)`. -/
def pickFields (args : JsValue) (ps : List String) : JsFields :=
  match ps with
  | [] => .nil
  | p :: rest =>
      match args with
      | .obj fs =>
          if fs.has p then .cons p (fs.get p) (pickFields args rest)
          else pickFields args rest
      | _ => pickFields args rest

/-- The tail of `getValidArgs` after validation: shallow-clone args and
session, create or clone the stack, and stamp the call identity fields.
Cloning is value copy in this embedding. -/
def stampSession (args : JsValue) (uniqueId : UniqueId) (methodMeta : MethodMeta) : JsValue :=
  let session := args.get "session"
  let stack := if !(session.get "stack").truthy then JsValue.strArr [] else session.get "stack"
  let session := session.set "stack" stack
  let session := session.set "moduleCallCreateTime" (.str uniqueId.timestamp)
  let session := session.set "moduleCallId" (.str uniqueId.id)
  let session := session.set "moduleCallSignature" (.str methodMeta.signature)
  args.set "session" session

/-- The npm `deep-resolve` collaborator: recursively awaits nested
deferred values. The value model carries no pending promises, so it is
the identity; `runNotCached` additionally records an event when it runs
on a result. -/
def deepResolve (v : JsValue) : JsValue := v

/-- The tail of `getValidArgs`: stamp the session, then resolve promises
in args — skipped on bound methods because args are already resolved by
the primary call. -/
def finishValidArgs (args : JsValue) (bindType : Option String) (uniqueId : UniqueId)
    (methodMeta : MethodMeta) : JsValue :=
  let args := stampSession args uniqueId methodMeta
  if methodMeta.resolve && bindType.isNone then deepResolve args else args

/-- `getValidArgs(args, bindSignature, bindType, methodMeta)`.

Returns both the state of the caller's args object after the call (the
source assigns `args.session = {}` onto the caller's object in
non-strict mode before cloning) and the cloned pipeline args. -/
def getValidArgs (args0 : JsValue) (bindType : Option String) (uniqueId : UniqueId)
    (methodMeta : MethodMeta) : Except JsError (JsValue × JsValue) :=
  -- require object for args
  if notAnObject args0 then
    if methodMeta.strictArgs then
      .error ⟨methodMeta.signature ++ ": invalid args - " ++ args0.typeName, .undef⟩
    else
      -- otherwise create new object for args; the caller's value is untouched
      let args1 : JsValue := .obj .nil
      let args2 := args1.set "session" (.obj .nil)
      .ok (args0, finishValidArgs args2 bindType uniqueId methodMeta)
  else
    -- require session
    if notAnObject (args0.get "session") then
      if methodMeta.strictArgs then
        .error ⟨methodMeta.signature ++ ": invalid session - " ++
          (args0.get "session").typeName, .undef⟩
      else
        -- `args.session = {}` mutates the caller's object, then clone
        let args1 := args0.set "session" (.obj .nil)
        .ok (args1, finishValidArgs args1 bindType uniqueId methodMeta)
    else
      .ok (args0, finishValidArgs args0 bindType uniqueId methodMeta)

/-! ## Extension runners -/

/-- Invoke each extension in registration order with the given args,
collecting results and the trace (an `extCall` event records the args
each extension receives). -/
def runExts (exts : List ExtFun) (args : JsValue) (signature bindType : String) :
    List CallResult × List PipeEvent :=
  match exts with
  | [] => ([], [])
  | ext :: rest =>
      let (r, ev) := ext args signature bindType
      let (rs, evs) := runExts rest args signature bindType
      (r :: rs, .extCall bindType args :: ev ++ evs)

/-- The merge-or-replace fold body shared by `runAfter` and
`runWithAfter`: objects merge, defined non-objects replace, `undefined`
is ignored. -/
def mergeStep (res result : JsValue) : JsValue :=
  if res.typeName == "object" && !res.isNull &&
      result.typeName == "object" && !result.isNull then
    deepMerge res result
  else if !result.isUndef then result
  else res

/-- `runBefore(args, methodMeta)`: run `before` extensions, reject on
the first rejection, merge object results into args in order. -/
def runBefore (args : JsValue) (methodMeta : MethodMeta) : CallResult × List PipeEvent :=
  if methodMeta.before.isEmpty then (.ok args, [])
  else
    let (results, evs) := runExts methodMeta.before args methodMeta.signature "before"
    match firstError results with
    | some e => (.error e, evs)
    | none =>
        let merged := (okValues results).foldl
          (fun a result =>
            if result.typeName == "object" && !result.isNull then deepMerge a result else a)
          args
        (.ok merged, evs)

/-- The `_.each` loop shared by the detached runners: call each
extension in order (its result is never awaited by the primary call and
its value is discarded); a rejection is reported through the log
client's `error` operation when one is configured and silently dropped
otherwise. Only the trace is produced. -/
def runDetachedExts (exts : List ExtFun) (args : JsValue) (signature bindType : String)
    (logClient : Bool) : List PipeEvent :=
  match exts with
  | [] => []
  | ext :: rest =>
      let (r, ev) := ext args signature bindType
      .extCall bindType args :: ev ++
        (match r with
         | .error e => if logClient then [.logError e.message] else []
         | .ok _ => []) ++ runDetachedExts rest args signature bindType logClient

/-- `runBeforeDetach(args, methodMeta)`: fire-and-forget before
extensions; rejections are logged or dropped, never propagated. -/
def runBeforeDetach (args : JsValue) (methodMeta : MethodMeta) : List PipeEvent :=
  runDetachedExts methodMeta.beforeDetach args methodMeta.signature "beforeDetach"
    methodMeta.logClient

/-- `runWithDetach(args, methodMeta)`: same policy as `runBeforeDetach`. -/
def runWithDetach (args : JsValue) (methodMeta : MethodMeta) : List PipeEvent :=
  runDetachedExts methodMeta.withDetach args methodMeta.signature "withDetach"
    methodMeta.logClient

/-- `runWithBefore(args, methodMeta)`: start the `with` extensions and
return their pending results, or `undefined` when none are bound. -/
def runWithBefore (args : JsValue) (methodMeta : MethodMeta) :
    Option (List CallResult × List PipeEvent) :=
  if methodMeta.withE.isEmpty then none
  else some (runExts methodMeta.withE args methodMeta.signature "with")

/-- `runWithAfter(ret, runWith)`: after the primary result settles,
await the `with` results and fold them in with `mergeStep`. -/
def runWithAfter (ret : CallResult) (runWith : List CallResult) : CallResult :=
  match ret with
  | .error e => .error e
  | .ok res =>
      match firstError runWith with
      | some e => .error e
      | none => .ok ((okValues runWith).foldl mergeStep res)

/-- The `{args, res, origRes, session}` object built by `runAfter`
(`if-defined` tests, i.e. `!== undefined`). -/
def afterExtArgs (args : JsValue) (res : JsValue) : JsValue :=
  .obj (.cons "args" (if !(args.get "args").isUndef then args.get "args" else args)
        (.cons "res" res
        (.cons "origRes" (if !(args.get "origRes").isUndef then args.get "origRes"
                          else args.get "res")
        (.cons "session" (args.get "session") .nil))))

/-- The `{args, res, origRes, session}` object built by `runAfterDetach`
(plain truthiness tests in the source, unlike `runAfter`). -/
def afterDetachExtArgs (args : JsValue) (res : JsValue) : JsValue :=
  .obj (.cons "args" (if (args.get "args").truthy then args.get "args" else args)
        (.cons "res" res
        (.cons "origRes" (if (args.get "origRes").truthy then args.get "origRes"
                          else args.get "res")
        (.cons "session" (args.get "session") .nil))))

/-- `runAfter(args, methodMeta, ret)`: once the primary result settles,
run the `after` extensions with the `{args, res, origRes, session}`
object, reject on the first rejection, and fold results with
`mergeStep`. -/
def runAfter (args : JsValue) (methodMeta : MethodMeta) (ret : CallResult) :
    CallResult × List PipeEvent :=
  if methodMeta.after.isEmpty then (ret, [])
  else
    match ret with
    | .error e => (.error e, [])
    | .ok res =>
        let aargs := afterExtArgs args res
        let (results, evs) := runExts methodMeta.after aargs methodMeta.signature "after"
        match firstError results with
        | some e => (.error e, evs)
        | none => (.ok ((okValues results).foldl mergeStep res), evs)

/-- `runAfterDetach(args, methodMeta, ret)`: fire-and-forget after the
primary result resolves; never runs on rejection; failures reported via
the log client's `error` operation when configured. -/
def runAfterDetach (args : JsValue) (methodMeta : MethodMeta) (ret : CallResult) :
    List PipeEvent :=
  if methodMeta.afterDetach.isEmpty then []
  else
    match ret with
    | .error _ => []
    | .ok res =>
        runDetachedExts methodMeta.afterDetach (afterDetachExtArgs args res)
          methodMeta.signature "afterDetach" methodMeta.logClient

/-! ## Validation, caching, logging -/

/-- `validateArgs(args, methodMeta)`: validate args against the args
schema when one is configured and validation is enabled. -/
def validateArgs (args : JsValue) (methodMeta : MethodMeta) : CallResult :=
  if !methodMeta.hasArgsSchema then .ok args
  else if !methodMeta.validateArgs then .ok args
  else if !methodMeta.argsValid args then
    .error ⟨methodMeta.signature ++ ": invalid args - " ++ methodMeta.errorsText,
      methodMeta.ajvErrors⟩
  else .ok args

/-- `validateReturn(ret, methodMeta)`: validate the settled result
against the return schema when one is configured and return validation
is enabled; the error carries the structured `ajv.errors` payload. -/
def validateReturn (ret : JsValue) (methodMeta : MethodMeta) : CallResult :=
  if !methodMeta.hasReturnSchema then .ok ret
  else if !methodMeta.validateReturn then .ok ret
  else if !methodMeta.returnValid ret then
    .error ⟨methodMeta.signature ++ ": invalid return - " ++ methodMeta.errorsText,
      methodMeta.ajvErrors⟩
  else .ok ret

/-- `getCacheKey(args, methodMeta)`: hash of the method signature and
either the `keyParams` subset of args or args without the session. -/
def getCacheKey (cache : CacheSpec) (args : JsValue) (methodMeta : MethodMeta) : String :=
  let keyArgs : JsValue :=
    match cache.keyParams with
    | some ps => .obj (pickFields args ps)
    | none =>
        match args with
        | .obj fs => .obj (fs.del "session")
        | v => v
  stableId (.obj (.cons "args" keyArgs (.cons "method" (.str methodMeta.signature) .nil)))

/-- `runNotCached(args, methodMeta)`: the direct path — freeze-clone the
args, invoke the implementation, clone/deep-resolve the settled result
as configured, and validate the return value. Note the guard on the
validation step tests `methodMeta.validateArgs` in the source. -/
def runNotCached (args : JsValue) (methodMeta : MethodMeta) : CallResult × List PipeEvent :=
  let ev1 : List PipeEvent := if methodMeta.freeze then [.freezeArgs] else []
  -- Immutable AI only changes the call receiver, not args or result
  match methodMeta.method args with
  | .error e => (.error e, ev1 ++ [.implCall args])
  | .ok ret =>
      let ev2 := ev1 ++ [.implCall args] ++
        (if methodMeta.freeze then [.cloneResult] else [])
      let ev3 := ev2 ++
        (if methodMeta.resolve && ret.typeName == "object" && !ret.isNull then
          [.deepResolveResult] else [])
      if methodMeta.hasReturnSchema && methodMeta.validateArgs then
        (validateReturn ret methodMeta, ev3 ++ [.validateReturnCall])
      else
        (.ok ret, ev3)

/-- `runCached(args, methodMeta)`: derive the key, try the cache; a
`null` hit or a `get` rejection falls through to `runNotCached` and
persists a non-null direct result with `setex`/`set`; a non-null hit is
stamped with the cache key when it is an object and returned without
invoking the implementation. -/
def runCached (cache : CacheSpec) (args : JsValue) (methodMeta : MethodMeta) :
    CallResult × List PipeEvent :=
  let key := match cache.keyMethod with
    | some keyMethod => keyMethod args
    | none => getCacheKey cache args methodMeta
  let missPath : CallResult × List PipeEvent :=
    match runNotCached args methodMeta with
    | (.error e, ev) => (.error e, ev)
    | (.ok res, ev) =>
        if !res.isNull then
          (.ok res, ev ++
            (if cache.expire.truthy then [.cacheSetex key res cache.expire]
             else [.cacheSet key res]))
        else (.ok res, ev)
  match cache.get key with
  | .ok res =>
      if res.isNull then
        let (r, ev) := missPath
        (r, .cacheGet key :: ev)
      else
        let stamped := if res.typeName == "object" then res.set "_cached" (.str key) else res
        (.ok stamped, [.cacheGet key])
  | .error _ =>
      let (r, ev) := missPath
      (r, .cacheGet key :: ev)

/-- `logCall(args, methodMeta)`: emit a `moduleCall` event unless no log
client is configured or the session's `noLogging` flag is set. -/
def logCall (args : JsValue) (methodMeta : MethodMeta) : List PipeEvent :=
  if !methodMeta.logClient then []
  else if ((args.get "session").get "noLogging").truthy then []
  else [.moduleCall args]

/-- `logReturn(args, methodMeta, ret)`: emit `moduleCallResolve` with
`resolved:1` on success and `resolved:0` on failure (the rejection is
re-thrown after logging). -/
def logReturn (args : JsValue) (methodMeta : MethodMeta) (ret : CallResult) :
    List PipeEvent :=
  if !methodMeta.logClient then []
  else if ((args.get "session").get "noLogging").truthy then []
  else match ret with
    | .ok _ => [.moduleCallResolve true]
    | .error _ => [.moduleCallResolve false]

/-! ## The method wrapper -/

/-- Push a frame onto a stack array. -/
def pushFrame : JsValue → String → JsValue
  | .strArr xs, f => .strArr (xs ++ [f])
  | v, _ => v

/-- `methodWrapperFunction(args, bindSignature, bindType)` — the uniform
call contract every registered method is wrapped in. `extraArgs` models
`arguments.length > 1` for a caller-supplied extra positional argument;
`uniqueId` models the `randomUniqueId()` environment. -/
def methodWrapperFunction (methodMeta : MethodMeta) (args0 : JsValue)
    (bindSignature bindType : Option String) (extraArgs : Bool) (uniqueId : UniqueId) :
    CallResult × List PipeEvent :=
  -- throw exception on invalid arguments
  if methodMeta.strictArgs && extraArgs && !isBindType bindType then
    (.error ⟨methodMeta.signature ++ ": too many arguments", .undef⟩, [])
  else
    match getValidArgs args0 bindType uniqueId methodMeta with
    | .error e => (.error e, [])
    | .ok (_, args1) =>
        -- log module call
        let evCall := logCall args1 methodMeta
        -- if this method is bound to another add info to stack
        let stackFrame :=
          if isBindType bindType then
            methodMeta.signature ++ "," ++ bindType.getD "" ++ "," ++ bindSignature.getD ""
          else methodMeta.signature
        -- add current call to stack after logging
        let session := args1.get "session"
        let args2 := args1.set "session"
          (session.set "stack" (pushFrame (session.get "stack") stackFrame))
        let evBD := runBeforeDetach args2 methodMeta
        match runBefore args2 methodMeta with
        | (.error e, evB) => (.error e, evCall ++ evBD ++ evB)
        | (.ok args3, evB) =>
            -- validate args after before methods execute
            match validateArgs args3 methodMeta with
            | .error e => (.error e, evCall ++ evBD ++ evB)
            | .ok args4 =>
                let evWD := runWithDetach args4 methodMeta
                let runWith := runWithBefore args4 methodMeta
                let (ret0, evI) :=
                  match methodMeta.cache with
                  | some cache => runCached cache args4 methodMeta
                  | none => runNotCached args4 methodMeta
                let ret1 :=
                  match runWith with
                  | some (ws, _) => runWithAfter ret0 ws
                  | none => ret0
                let evW := match runWith with | some (_, e) => e | none => []
                let evAD := runAfterDetach args4 methodMeta ret1
                let (ret2, evA) := runAfter args4 methodMeta ret1
                let evLR := logReturn args4 methodMeta ret2
                (ret2, evCall ++ evBD ++ evB ++ evWD ++ evW ++ evI ++ evAD ++ evA ++ evLR)

/-- The settled result of `methodWrapperFunction` with the event trace
projected away: the promise chain's value path. The detached stages do
not appear — they contribute no value to the chain. -/
def wrapperResult (methodMeta : MethodMeta) (args0 : JsValue)
    (bindSignature bindType : Option String) (extraArgs : Bool) (uniqueId : UniqueId) :
    CallResult :=
  if methodMeta.strictArgs && extraArgs && !isBindType bindType then
    .error ⟨methodMeta.signature ++ ": too many arguments", .undef⟩
  else
    match getValidArgs args0 bindType uniqueId methodMeta with
    | .error e => .error e
    | .ok (_, args1) =>
        let stackFrame :=
          if isBindType bindType then
            methodMeta.signature ++ "," ++ bindType.getD "" ++ "," ++ bindSignature.getD ""
          else methodMeta.signature
        let session := args1.get "session"
        let args2 := args1.set "session"
          (session.set "stack" (pushFrame (session.get "stack") stackFrame))
        match runBefore args2 methodMeta with
        | (.error e, _) => .error e
        | (.ok args3, _) =>
            match validateArgs args3 methodMeta with
            | .error e => .error e
            | .ok args4 =>
                let runWith := runWithBefore args4 methodMeta
                let ret0 :=
                  match methodMeta.cache with
                  | some cache => (runCached cache args4 methodMeta).1
                  | none => (runNotCached args4 methodMeta).1
                let ret1 :=
                  match runWith with
                  | some (ws, _) => runWithAfter ret0 ws
                  | none => ret0
                (runAfter args4 methodMeta ret1).1

/-- View a wrapped method as an extension function bindable to another
method (the form stored in `method.meta[bindType]` lists). -/
def asExt (methodMeta : MethodMeta) (uniqueId : UniqueId) : ExtFun :=
  fun args bindSignature bindType =>
    methodWrapperFunction methodMeta args (some bindSignature) (some bindType) false uniqueId

/-! ## Heap model of the session stack

The session is a mutable object whose `stack` field is a mutable array
shared by reference. To reason about the cloning in `getValidArgs`
(`args.session = _.clone(args.session)` followed by
`args.session.stack = _.clone(args.session.stack)`) and the in-place
`args.session.stack.push(...)` of the wrapper, stacks live in an
explicit heap and a session carries a reference into it. -/

/-- The heap of stack arrays; a session holds an index into it. -/
abbrev StackHeap := List (List String)

/-- Read a stack array from the heap. -/
def heapGet : StackHeap → Nat → List String
  | [], _ => []
  | s :: _, 0 => s
  | _ :: h, r + 1 => heapGet h r

/-- Overwrite a stack array in the heap. -/
def heapSet : StackHeap → Nat → List String → StackHeap
  | [], _, _ => []
  | _ :: h, 0, s => s :: h
  | x :: h, r + 1, s => x :: heapSet h r s

/-- One hop of the pipeline on the session: clone the caller's stack
array into a fresh cell (`getValidArgs`), then push the current call's
signature onto the fresh copy (the wrapper's stack push). Returns the
new heap and the callee session's stack reference. -/
def hop (h : StackHeap) (sessionRef : Nat) (sig : String) : StackHeap × Nat :=
  let h1 := h ++ [heapGet h sessionRef]
  let newRef := h.length
  (heapSet h1 newRef (heapGet h1 newRef ++ [sig]), newRef)

mutual

/-- A tree of nested method calls: a call's children are the calls its
implementation makes, passing `args.session` along. -/
inductive CallTree where
  | node (sig : String) (children : CallForest)
deriving DecidableEq

/-- Sibling calls sharing the parent's session, in program order. -/
inductive CallForest where
  | nil
  | cons (t : CallTree) (rest : CallForest)
deriving DecidableEq

end

mutual

/-- A call tree labelled with the `session.stack` each implementation
observed on entry. -/
inductive ObsTree where
  | node (sig : String) (observed : List String) (children : ObsForest)
deriving DecidableEq

/-- Observation trees of sibling calls. -/
inductive ObsForest where
  | nil
  | cons (t : ObsTree) (rest : ObsForest)
deriving DecidableEq

end

mutual

/-- Execute a call tree against the stack heap: each call clones and
pushes via `hop`, observes its stack, and runs its children in order
against the resulting heap, handing each its own session reference. -/
def runCall (h : StackHeap) (sessionRef : Nat) : CallTree → StackHeap × ObsTree
  | .node sig children =>
      let (h1, r) := hop h sessionRef sig
      let obs := heapGet h1 r
      let (h2, oc) := runForest h1 r children
      (h2, .node sig obs oc)

/-- Execute sibling calls left to right, threading the heap. -/
def runForest (h : StackHeap) (sessionRef : Nat) : CallForest → StackHeap × ObsForest
  | .nil => (h, .nil)
  | .cons t rest =>
      let (h1, o) := runCall h sessionRef t
      let (h2, os) := runForest h1 sessionRef rest
      (h2, .cons o os)

end

mutual

/-- Follows the spec's words: every call observes its chain of
ancestors' signatures (here together with its own signature, pushed
before the implementation runs), independently per branch. -/
def specObs (ancestors : List String) : CallTree → ObsTree
  | .node sig children =>
      .node sig (ancestors ++ [sig]) (specObsForest (ancestors ++ [sig]) children)

/-- `specObs` mapped over sibling calls. -/
def specObsForest (ancestors : List String) : CallForest → ObsForest
  | .nil => .nil
  | .cons t rest => .cons (specObs ancestors t) (specObsForest ancestors rest)

end

/-! ## Deferred bind registry (`bind` / `doBindForMethod` of
`lib/immutable-core.js`) -/

/-- An entry of the global binds store: target signature, bind type,
bound method's signature, and the `bound` flag flipped on apply. -/
structure BindEntry where
  target : String
  bindType : String
  extSig : String
  bound : Bool
deriving DecidableEq

/-- Association list holding `method.meta[bindType]` extension lists,
keyed by (target signature, bind type). -/
abbrev MetaBinds := List ((String × String) × List String)

/-- Look up a method's extension list for one bind type. -/
def metaGet : MetaBinds → String × String → List String
  | [], _ => []
  | (k, l) :: rest, key => if k = key then l else metaGet rest key

/-- Append an extension to a method's extension list for one bind type
(`method.meta[bindType].push(bindMethod)`). -/
def metaAppend : MetaBinds → String × String → String → MetaBinds
  | [], key, x => [(key, [x])]
  | (k, l) :: rest, key, x =>
      if k = key then (k, l ++ [x]) :: rest else (k, l) :: metaAppend rest key x

/-- The registry state: defined method signatures, per-method extension
lists, and the global binds store. -/
structure Registry where
  methods : List String
  metaBinds : MetaBinds
  binds : List BindEntry
deriving DecidableEq

/-- The state after `ImmutableCore.reset()`. -/
def emptyRegistry : Registry := ⟨[], [], []⟩

/-- Walk the binds store for a signature and, for every not-yet-applied
entry, append the bound method to the target's extension list (via
`module.bind`) and set the `bound` flag. -/
def applyBinds (signature : String) :
    List BindEntry → MetaBinds → List BindEntry × MetaBinds
  | [], mb => ([], mb)
  | e :: rest, mb =>
      if e.target = signature && !e.bound then
        let mb' := metaAppend mb (e.target, e.bindType) e.extSig
        let (rest', mb'') := applyBinds signature rest mb'
        ({ e with bound := true } :: rest', mb'')
      else
        let (rest', mb') := applyBinds signature rest mb
        (e :: rest', mb')

/-- `doBindForMethod(signature)`: no-op when the target method is not
yet defined, otherwise apply all queued unbound entries for it. -/
def doBindForMethod (signature : String) (reg : Registry) : Registry :=
  if signature ∈ reg.methods then
    let (binds', mb') := applyBinds signature reg.binds reg.metaBinds
    { reg with binds := binds', metaBinds := mb' }
  else reg

/-- `bind(bindType, signature, method)`: reject a duplicate registration
of the same triple (override disallowed), queue the entry unbound, then
bind to the method if it exists. -/
def bindOp (bindType target extSig : String) (reg : Registry) : Except String Registry :=
  if reg.binds.any fun e => e.target = target && e.bindType = bindType && e.extSig = extSig then
    .error ("bind error: method " ++ extSig ++ " already bound " ++ bindType ++ " to " ++ target)
  else
    .ok (doBindForMethod target
      { reg with binds := reg.binds ++ [⟨target, bindType, extSig, false⟩] })

/-- `method`/`module` definition as seen by the registry: record the
signature, then do binds for it (`getMethod` / `getModule`). -/
def defineMethod (signature : String) (reg : Registry) : Except String Registry :=
  if signature ∈ reg.methods then .error ("method " ++ signature ++ " already defined")
  else .ok (doBindForMethod signature { reg with methods := reg.methods ++ [signature] })

/-- Registry operations in program order. `applyPass` is any additional
`doBindForMethod` triggered by unrelated definition or rule lookups. -/
inductive RegOp where
  | bind (bindType target extSig : String)
  | defineMethod (signature : String)
  | applyPass (signature : String)
deriving DecidableEq

/-- Run a sequence of registry operations. -/
def applyOps : Registry → List RegOp → Except String Registry
  | reg, [] => .ok reg
  | reg, .bind ty t x :: ops =>
      match bindOp ty t x reg with
      | .error e => .error e
      | .ok reg' => applyOps reg' ops
  | reg, .defineMethod s :: ops =>
      match defineMethod s reg with
      | .error e => .error e
      | .ok reg' => applyOps reg' ops
  | reg, .applyPass s :: ops => applyOps (doBindForMethod s reg) ops

/-- Whether a binds-store entry is the registration of extension `x`
against `(t, ty)`. -/
def entryMatches (t ty x : String) (e : BindEntry) : Bool :=
  e.target == t && e.bindType == ty && e.extSig == x

/-- The registry invariant: a method's extension list holds each bound
method exactly as many times as there are applied (`bound`) entries for
it (at most one), and an entry is applied exactly when its target method
is defined. -/
def RegInv (reg : Registry) : Prop :=
  (∀ t ty x : String, (metaGet reg.metaBinds (t, ty)).count x =
      reg.binds.countP (fun e => entryMatches t ty x e && e.bound)) ∧
  (∀ t ty x : String, reg.binds.countP (entryMatches t ty x) ≤ 1) ∧
  (∀ e ∈ reg.binds, e.bound = true → e.target ∈ reg.methods) ∧
  (∀ e ∈ reg.binds, e.target ∈ reg.methods → e.bound = true)

/-- P9's scenario: register a `before` extension against a target not
yet defined, then define the target, then run a redundant apply pass. -/
def scenarioOps : List RegOp :=
  [.bind "before" "FooModule.foo" "BarModule.bar",
   .defineMethod "FooModule.foo",
   .applyPass "FooModule.foo"]

/-- The registry after running `scenarioOps` from the empty registry. -/
def scenarioReg : Registry :=
  ⟨["FooModule.foo"],
   [(("FooModule.foo", "before"), ["BarModule.bar"])],
   [⟨"FooModule.foo", "before", "BarModule.bar", true⟩]⟩

/-! ## Shared concrete scenario material -/

/-- Number of fields with the given key (JavaScript objects have one). -/
def JsFields.countKey : JsFields → String → Nat
  | .nil, _ => 0
  | .cons k _ rest, key => (if k = key then 1 else 0) + countKey rest key

/-- The args objects handed to extensions of one bind type, extracted
from a call's event trace in invocation order. -/
def extCallArgsOf (bindType : String) (evs : List PipeEvent) : List JsValue :=
  evs.filterMap fun ev =>
    match ev with
    | .extCall t a => if t = bindType then some a else none
    | _ => none

/-- A fixed `randomUniqueId()` environment for concrete runs. -/
def uid0 : UniqueId := ⟨"uid", "ts"⟩

/-- Metadata of a plainly defined method under the test suite's
`strictArgs(false)` configuration: no schemas, no cache, no log client,
no extensions, default resolve. -/
def plainMeta (moduleName methodName : String) (impl : JsValue → CallResult) : MethodMeta where
  moduleName := moduleName
  methodName := methodName
  strictArgs := false
  resolve := true
  freeze := false
  validateArgs := true
  validateReturn := true
  hasArgsSchema := false
  hasReturnSchema := false
  argsValid := fun _ => true
  returnValid := fun _ => true
  errorsText := ""
  ajvErrors := .undef
  method := impl
  before := []
  beforeDetach := []
  after := []
  afterDetach := []
  withE := []
  withDetach := []
  cache := none
  logClient := false

/-- `{session: {}}` — the canonical caller args. -/
def sessionOnlyArgs : JsValue := .obj (.cons "session" (.obj .nil) .nil)

/-- `FooModule.foo`, resolving `true` (the chain target T). -/
def metaFooDirect : MethodMeta := plainMeta "FooModule" "foo" fun _ => .ok (.bool true)

/-- `BamModule.bam` (E2), an assertion-only extension resolving
`undefined`. -/
def metaBam : MethodMeta := plainMeta "BamModule" "bam" fun _ => .ok (.undef)

/-- `BarModule.bar` (E1), resolving `false`, with E2 bound `after` it. -/
def metaBar : MethodMeta :=
  { plainMeta "BarModule" "bar" (fun _ => .ok (.bool false)) with
      after := [asExt metaBam uid0] }

/-- The chain target T with E1 bound `after` it. -/
def metaFoo : MethodMeta := { metaFooDirect with after := [asExt metaBar uid0] }

/-- The full trace of `FooModule.foo({session: {}})` with the after
chain T ← E1 ← E2 bound. -/
def afterChainTrace : List PipeEvent :=
  (methodWrapperFunction metaFoo sessionOnlyArgs none none false uid0).2

/-- A method metadata with its detached-extension lists cleared —
the comparison point for the detach non-blocking property. -/
def stripDetach (m : MethodMeta) : MethodMeta :=
  { m with beforeDetach := [], afterDetach := [], withDetach := [] }

/-- `FooModule.foo` with a return schema that always fails, return
validation enabled, and args validation disabled — the input exposing
the `validateArgs` guard on the return-validation step. -/
def returnSchemaMeta : MethodMeta :=
  { plainMeta "FooModule" "foo" (fun _ => .ok .undef) with
      hasReturnSchema := true
      validateArgs := false
      validateReturn := true
      returnValid := fun _ => false
      errorsText := "data should have required property foo"
      ajvErrors := .obj (.cons "keyword" (.str "required") .nil) }

/-- A cache client whose `get` always resolves with the given value. -/
def hitCacheSpec (v : JsValue) : CacheSpec := ⟨none, none, .undef, fun _ => .ok v⟩

/-- A cache client whose `get` always resolves `null` (miss). -/
def missCacheSpec : CacheSpec := ⟨none, none, .undef, fun _ => .ok .null⟩

/-- A cache client whose `get` always rejects. -/
def errCacheSpec (e : JsError) : CacheSpec := ⟨none, none, .undef, fun _ => .error e⟩

/-! ## Lemmas on the merge fold -/

theorem JsValue.get_obj (fs : JsFields) (k : String) : (JsValue.obj fs).get k = fs.get k := rfl

theorem mergeField_get_self : ∀ (dst : JsFields) (k : String) (v : JsValue),
    v.isObj = false → v.isUndef = false → (mergeField dst k v).get k = v
  | .nil, k, v, _, hundef => by
      rw [mergeField]; simp [hundef, JsFields.get]
  | .cons k' v' rest, k, v, hobj, hundef => by
      rw [mergeField]
      by_cases hk : k' = k
      · simp [hk, hobj, hundef, JsFields.get]
      · simp [hk, JsFields.get, mergeField_get_self rest k v hobj hundef]

theorem mergeField_get_ne : ∀ (dst : JsFields) (k0 : String) (v0 : JsValue) (k : String),
    k0 ≠ k → (mergeField dst k0 v0).get k = dst.get k
  | .nil, k0, v0, k, hne => by
      rw [mergeField]
      by_cases hu : v0.isUndef
      · simp [hu]
      · simp [hu, JsFields.get, hne]
  | .cons k' v' rest, k0, v0, k, hne => by
      rw [mergeField]
      by_cases hk : k' = k0
      · by_cases hu : v0.isUndef <;>
          by_cases ho : (v'.isObj && v0.isObj) = true <;>
            simp [hk, hu, ho, JsFields.get, hne, Ne.symm (hk ▸ hne)]
      · by_cases hkk : k' = k <;>
          simp [hk, hkk, JsFields.get, Ne.symm hne, mergeField_get_ne rest k0 v0 k hne]

theorem mergeFields_get_zero : ∀ (src dst : JsFields) (k : String),
    src.countKey k = 0 → (mergeFields dst src).get k = dst.get k
  | .nil, dst, k, _ => by rw [mergeFields]
  | .cons k0 v0 rest, dst, k, hz => by
      rw [mergeFields]
      rw [JsFields.countKey] at hz
      by_cases hk : k0 = k
      · simp [hk] at hz
      · simp [hk] at hz
        rw [mergeFields_get_zero rest (mergeField dst k0 v0) k hz]
        exact mergeField_get_ne dst k0 v0 k hk

theorem mergeFields_get_unique : ∀ (src dst : JsFields) (k : String) (v : JsValue),
    src.countKey k = 1 → src.get k = v → v.isObj = false → v.isUndef = false →
    (mergeFields dst src).get k = v
  | .nil, dst, k, v, hc, _, _, _ => by rw [JsFields.countKey] at hc; exact absurd hc (by simp)
  | .cons k0 v0 rest, dst, k, v, hc, hget, hobj, hundef => by
      rw [mergeFields]
      rw [JsFields.countKey] at hc
      rw [JsFields.get] at hget
      by_cases hk : k0 = k
      · simp [hk] at hc hget
        rw [mergeFields_get_zero rest (mergeField dst k0 v0) k hc, hget, hk]
        exact mergeField_get_self dst k v hobj hundef
      · simp [hk] at hc hget
        exact mergeFields_get_unique rest (mergeField dst k0 v0) k v hc hget hobj hundef

/-- **C2**: for every call with `with` or `after` extensions the final
result is the fold (`foldl mergeStep`) of the extension results over the
primary result in invocation order — which is registration order, since
`bind` appends to `method.meta[bindType]` and `runExts` preserves list
order. The fold's cases: two mappings deep-merge with the later result
winning conflicting keys; a defined non-mapping extension result
replaces the accumulated result; an `undefined` extension result is
ignored. -/
theorem with_after_merge_policy :
    (∀ (args : JsValue) (m : MethodMeta) (res : JsValue),
        m.after.isEmpty = false →
        firstError (runExts m.after (afterExtArgs args res) m.signature "after").1 = none →
        (runAfter args m (.ok res)).1 =
          .ok ((okValues (runExts m.after (afterExtArgs args res) m.signature "after").1).foldl
            mergeStep res)) ∧
    (∀ (ws : List CallResult) (res : JsValue),
        firstError ws = none →
        runWithAfter (.ok res) ws = .ok ((okValues ws).foldl mergeStep res)) ∧
    (∀ a r : JsValue, a.isObj = true → r.isObj = true → mergeStep a r = deepMerge a r) ∧
    (∀ a r : JsValue, r.isObj = false → r.isUndef = false → mergeStep a r = r) ∧
    (∀ a : JsValue, mergeStep a .undef = a) ∧
    (∀ (dst src : JsFields) (k : String) (v : JsValue),
        src.countKey k = 1 → src.get k = v → v.isObj = false → v.isUndef = false →
        (deepMerge (.obj dst) (.obj src)).get k = v) := by
  refine ⟨?_, ?_, ?_, ?_, ?_, ?_⟩
  · intro args m res hne hfe
    rcases hrx : runExts m.after (afterExtArgs args res) m.signature "after" with ⟨results, evs⟩
    rw [hrx] at hfe
    simp only [runAfter, hne, Bool.false_eq_true, if_false, hrx, hfe]
  · intro ws res hfe
    simp only [runWithAfter, hfe]
  · intro a r ha hr
    cases a <;> simp [JsValue.isObj] at ha
    cases r <;> simp [JsValue.isObj] at hr
    simp [mergeStep, JsValue.typeName, JsValue.isNull]
  · intro a r hro hru
    cases r <;> simp [JsValue.isObj] at hro <;>
      simp [JsValue.isUndef] at hru <;>
      cases a <;>
        simp [mergeStep, deepMerge, JsValue.typeName, JsValue.isNull, JsValue.isUndef]
  · intro a
    cases a <;> simp [mergeStep, JsValue.typeName, JsValue.isUndef]
  · intro dst src k v hc hget hobj hundef
    simp only [deepMerge, JsValue.get]
    exact mergeFields_get_unique src dst k v hc hget hobj hundef

/-- Witness for C2 at concrete inputs: a one-extension `after` run that
replaces a boolean result, `runWithAfter` merging two mappings with the
later one winning the conflicting key, the three `mergeStep` cases, and
later-wins on a conflicting key. -/
theorem with_after_merge_policy_witness :
    (runAfter sessionOnlyArgs
        { metaFooDirect with after := [fun _ _ _ => (.ok (.bool false), [])] }
        (.ok (.bool true))).1 =
      .ok ((okValues (runExts [fun _ _ _ => (.ok (.bool false), [])]
        (afterExtArgs sessionOnlyArgs (.bool true))
        ({ metaFooDirect with
            after := [fun _ _ _ => (.ok (.bool false), [])] } : MethodMeta).signature
        "after").1).foldl mergeStep (.bool true)) ∧
    runWithAfter (.ok (.obj (.cons "a" (.num 1) .nil)))
        [.ok (.obj (.cons "a" (.num 2) .nil))] =
      .ok ((okValues [.ok (.obj (.cons "a" (.num 2) .nil))]).foldl mergeStep
        (.obj (.cons "a" (.num 1) .nil))) ∧
    mergeStep (.obj (.cons "a" (.num 1) .nil)) (.obj (.cons "b" (.num 2) .nil)) =
      deepMerge (.obj (.cons "a" (.num 1) .nil)) (.obj (.cons "b" (.num 2) .nil)) ∧
    mergeStep (.obj .nil) (.bool false) = .bool false ∧
    mergeStep (.bool true) .undef = .bool true ∧
    (deepMerge (.obj (.cons "a" (.num 1) .nil)) (.obj (.cons "a" (.num 2) .nil))).get "a" =
      .num 2 :=
  ⟨with_after_merge_policy.1 sessionOnlyArgs _ (.bool true) (by decide) (by decide),
   with_after_merge_policy.2.1 _ (.obj (.cons "a" (.num 1) .nil)) (by decide),
   with_after_merge_policy.2.2.1 _ _ (by decide) (by decide),
   with_after_merge_policy.2.2.2.1 _ _ (by decide) (by decide),
   with_after_merge_policy.2.2.2.2.1 _,
   with_after_merge_policy.2.2.2.2.2 _ _ "a" (.num 2) (by decide) (by decide)
     (by decide) (by decide)⟩

/-- **C1 counterexample**: with E1 bound `after` target T (T resolves
`true`), E1 — whose parent call T is not itself a chained after
extension — receives `origRes === undefined`, not `origRes === res`:
`runAfter` falls back to `args.res` of the incoming args, which a plain
caller never sets. The source's own test suite asserts exactly this
(`args for single after should have no origRes`). -/
theorem after_first_level_origRes_counterexample :
    ((extCallArgsOf "after" afterChainTrace).getD 0 .undef).get "res" = .bool true ∧
    ((extCallArgsOf "after" afterChainTrace).getD 0 .undef).get "origRes" = .undef ∧
    ((extCallArgsOf "after" afterChainTrace).getD 0 .undef).get "origRes" ≠
      ((extCallArgsOf "after" afterChainTrace).getD 0 .undef).get "res" := by
  decide

/-- **C1 amended**: every after extension receives
`{args, res, origRes, session}` where `res` is the call's own settled
result; `origRes` equals `args.origRes` when that field is defined
(chained after extensions of depth ≥ 2, propagating the original
target's result) and otherwise equals `args.res` — the `res` field of
the call's own incoming args, which is `undefined` when the call is a
plain target. In particular, with E1 `after` T and E2 `after` E1, T
resolving `true` and E1 resolving `false`, E2 receives `res === false`
and `origRes === true`, while E1 receives `origRes === undefined`. -/
theorem runAfter_origRes_propagation :
    (∀ args res : JsValue, (afterExtArgs args res).get "res" = res) ∧
    (∀ args res : JsValue, (args.get "origRes").isUndef = false →
        (afterExtArgs args res).get "origRes" = args.get "origRes") ∧
    (∀ args res : JsValue, (args.get "origRes").isUndef = true →
        (afterExtArgs args res).get "origRes" = args.get "res") ∧
    (∀ (args : JsValue) (m : MethodMeta) (res : JsValue),
        m.after.isEmpty = false →
        (runAfter args m (.ok res)).2 =
          (runExts m.after (afterExtArgs args res) m.signature "after").2) ∧
    ((extCallArgsOf "after" afterChainTrace).getD 1 .undef).get "res" = .bool false ∧
    ((extCallArgsOf "after" afterChainTrace).getD 1 .undef).get "origRes" = .bool true ∧
    ((extCallArgsOf "after" afterChainTrace).getD 0 .undef).get "origRes" = .undef := by
  refine ⟨?_, ?_, ?_, ?_, by decide, by decide, by decide⟩
  · intro args res
    simp [afterExtArgs, JsValue.get_obj, JsFields.get]
  · intro args res h
    simp only [afterExtArgs, JsValue.get_obj, JsFields.get]
    simp [h]
  · intro args res h
    simp only [afterExtArgs, JsValue.get_obj, JsFields.get]
    simp [h]
  · intro args m res hne
    rcases hrx : runExts m.after (afterExtArgs args res) m.signature "after" with ⟨results, evs⟩
    simp only [runAfter, hne, Bool.false_eq_true, if_false, hrx]
    cases firstError results <;> rfl

/-- Witness for C1's amended theorem at concrete inputs. -/
theorem runAfter_origRes_propagation_witness :
    (afterExtArgs sessionOnlyArgs (.bool true)).get "res" = .bool true ∧
    (afterExtArgs (.obj (.cons "origRes" (.bool true) .nil)) (.bool false)).get "origRes" =
      (JsValue.obj (.cons "origRes" (.bool true) .nil)).get "origRes" ∧
    (afterExtArgs sessionOnlyArgs (.bool false)).get "origRes" =
      sessionOnlyArgs.get "res" ∧
    (runAfter sessionOnlyArgs metaFoo (.ok (.bool true))).2 =
      (runExts metaFoo.after (afterExtArgs sessionOnlyArgs (.bool true))
        metaFoo.signature "after").2 :=
  ⟨runAfter_origRes_propagation.1 sessionOnlyArgs (.bool true),
   runAfter_origRes_propagation.2.1 _ (.bool false) (by decide),
   runAfter_origRes_propagation.2.2.1 sessionOnlyArgs (.bool false) (by decide),
   runAfter_origRes_propagation.2.2.2.1 sessionOnlyArgs metaFoo (.bool true) (by decide)⟩

/-! ## Heap lemmas for the session stack model -/

theorem heapGet_append_left : ∀ (h h2 : StackHeap) (r : Nat), r < h.length →
    heapGet (h ++ h2) r = heapGet h r
  | [], _, r, hr => absurd hr (by simp)
  | _ :: _, _, 0, _ => rfl
  | _ :: h, h2, r + 1, hr => heapGet_append_left h h2 r (by simpa using hr)

theorem heapGet_append_self : ∀ (h : StackHeap) (s : List String),
    heapGet (h ++ [s]) h.length = s
  | [], _ => rfl
  | _ :: h, s => heapGet_append_self h s

theorem heapSet_append_last : ∀ (h : StackHeap) (x y : List String),
    heapSet (h ++ [x]) h.length y = h ++ [y]
  | [], _, _ => rfl
  | z :: h, x, y => congrArg (z :: ·) (heapSet_append_last h x y)

theorem hop_eq (h : StackHeap) (r : Nat) (sig : String) :
    hop h r sig = (h ++ [heapGet h r ++ [sig]], h.length) := by
  simp [hop, heapGet_append_self, heapSet_append_last]

mutual

/-- Running a call with a valid session reference observes exactly the
incoming stack content extended with its own signature (matching
`specObs`), only grows the heap, and never modifies a pre-existing stack
array — each hop pushes onto a fresh clone. -/
theorem runCall_frames : ∀ (h : StackHeap) (r : Nat) (t : CallTree), r < h.length →
    (runCall h r t).2 = specObs (heapGet h r) t ∧
    h.length ≤ (runCall h r t).1.length ∧
    ∀ r' : Nat, r' < h.length → heapGet (runCall h r t).1 r' = heapGet h r'
  | h, r, .node sig children, hr => by
      have hlen : h.length < (h ++ [heapGet h r ++ [sig]]).length := by simp
      obtain ⟨hobs, hle, hframe⟩ :=
        runForest_frames (h ++ [heapGet h r ++ [sig]]) h.length children hlen
      simp only [runCall, hop_eq, heapGet_append_self]
      refine ⟨?_, ?_, ?_⟩
      · rw [hobs, heapGet_append_self, specObs]
      · exact le_trans (by simp) hle
      · intro r' hr'
        rw [hframe r' (lt_trans hr' (by simp)),
          heapGet_append_left h [heapGet h r ++ [sig]] r' hr']

/-- `runCall_frames` for sibling calls sharing one session reference. -/
theorem runForest_frames : ∀ (h : StackHeap) (r : Nat) (f : CallForest), r < h.length →
    (runForest h r f).2 = specObsForest (heapGet h r) f ∧
    h.length ≤ (runForest h r f).1.length ∧
    ∀ r' : Nat, r' < h.length → heapGet (runForest h r f).1 r' = heapGet h r'
  | h, r, .nil, _ => by simp [runForest, specObsForest]
  | h, r, .cons t rest, hr => by
      obtain ⟨ho1, hle1, hf1⟩ := runCall_frames h r t hr
      obtain ⟨ho2, hle2, hf2⟩ :=
        runForest_frames (runCall h r t).1 r rest (lt_of_lt_of_le hr hle1)
      simp only [runForest]
      refine ⟨?_, le_trans hle1 hle2, ?_⟩
      · rw [specObsForest, ho2, hf1 r hr, ho1]
      · intro r' hr'
        rw [hf2 r' (lt_of_lt_of_le hr' hle1), hf1 r' hr']

end

/-- **C3 counterexample**: in the spec's own scenario (`A.x` calls
`A.y`, which calls `B.bar` and `B.foo`), `B.bar`'s implementation
observes `['A.x','A.y','B.bar']` — the ancestors *plus its own
signature*, pushed before the implementation runs — not `['A.x','A.y']`
as the claim states. The repository's tests assert the self-inclusive
form. -/
theorem stack_includes_self_counterexample :
    (runCall [[]] 0 (.node "A.x" (.cons (.node "A.y"
        (.cons (.node "B.bar" .nil) (.cons (.node "B.foo" .nil) .nil))) .nil))).2 =
      .node "A.x" ["A.x"] (.cons (.node "A.y" ["A.x", "A.y"]
        (.cons (.node "B.bar" ["A.x", "A.y", "B.bar"] .nil)
        (.cons (.node "B.foo" ["A.x", "A.y", "B.foo"] .nil) .nil))) .nil) ∧
    (["A.x", "A.y", "B.bar"] : List String) ≠ ["A.x", "A.y"] := by
  decide

/-- **C3 amended**: along any chain of nested calls each call observes a
`session.stack` equal to the ordered signatures of its ancestors
*followed by its own signature* (pushed before the implementation runs),
and no sibling branch ever observes another branch's frames: running a
call only appends fresh stack arrays to the heap and never modifies a
pre-existing one, because session and stack are cloned on every hop
before the new frame is pushed, so each call's observed stack is exactly
its own root-to-self path (`specObs`). -/
theorem session_stack_per_branch (h : StackHeap) (r : Nat) (t : CallTree)
    (hr : r < h.length) :
    (runCall h r t).2 = specObs (heapGet h r) t ∧
    ∀ r' : Nat, r' < h.length → heapGet (runCall h r t).1 r' = heapGet h r' :=
  ⟨(runCall_frames h r t hr).1, (runCall_frames h r t hr).2.2⟩

/-- Witness for C3's amended theorem on a one-call tree in a fresh
heap. -/
theorem session_stack_per_branch_witness :
    0 < ([[]] : StackHeap).length ∧
    (runCall [[]] 0 (.node "A.x" .nil)).2 = specObs (heapGet [[]] 0) (.node "A.x" .nil) :=
  ⟨by decide, (session_stack_per_branch [[]] 0 (.node "A.x" .nil) (by decide)).1⟩

/-! ## Cache path -/

theorem implCall_mem_runNotCached (args : JsValue) (m : MethodMeta) :
    PipeEvent.implCall args ∈ (runNotCached args m).2 := by
  unfold runNotCached
  cases m.method args <;>
    cases hg : (m.hasReturnSchema && m.validateArgs) <;> simp [hg]

theorem isNull_null_eq : JsValue.null.isNull = true := rfl

/-- **C4**: on a cache miss (`get` resolves `null`) the implementation
is invoked, the call resolves with the direct result, and a non-null
direct result is persisted with `setex` when an expiry is configured and
`set` otherwise; on a non-null hit the implementation is never invoked
and the call resolves with the cached value, stamped with the cache key
under `_cached` when it is a mapping. -/
theorem runCached_miss_and_hit (cache : CacheSpec) (args : JsValue) (m : MethodMeta)
    (key : String)
    (hkey : key = match cache.keyMethod with
      | some keyMethod => keyMethod args
      | none => getCacheKey cache args m) :
    (cache.get key = .ok .null →
      PipeEvent.implCall args ∈ (runCached cache args m).2 ∧
      (runCached cache args m).1 = (runNotCached args m).1 ∧
      ∀ d ev, runNotCached args m = (.ok d, ev) → d.isNull = false →
        ((cache.expire.truthy = true →
            PipeEvent.cacheSetex key d cache.expire ∈ (runCached cache args m).2) ∧
         (cache.expire.truthy = false →
            PipeEvent.cacheSet key d ∈ (runCached cache args m).2))) ∧
    (∀ v, cache.get key = .ok v → v.isNull = false →
      (∀ a, PipeEvent.implCall a ∉ (runCached cache args m).2) ∧
      (runCached cache args m).1 =
        .ok (if v.typeName == "object" then v.set "_cached" (.str key) else v) ∧
      (v.isObj = true → (runCached cache args m).1 = .ok (v.set "_cached" (.str key)))) := by
  subst hkey
  have himpl := implCall_mem_runNotCached args m
  constructor
  · intro hget
    rcases hrn : runNotCached args m with ⟨r, ev⟩
    rw [hrn] at himpl
    refine ⟨?_, ?_, ?_⟩
    · cases r with
      | error e => simp [runCached, hget, hrn, isNull_null_eq, himpl]
      | ok d =>
          cases hdn : d.isNull <;> cases he : cache.expire.truthy <;>
            simp [runCached, hget, hrn, isNull_null_eq, hdn, he, himpl]
    · cases r with
      | error e => simp [runCached, hget, hrn, isNull_null_eq]
      | ok d =>
          cases hdn : d.isNull <;> cases he : cache.expire.truthy <;>
            simp [runCached, hget, hrn, isNull_null_eq, hdn, he]
    · intro d' ev' hd hn
      cases r with
      | error e => exact absurd hd (by simp)
      | ok d =>
          simp only [Prod.mk.injEq, Except.ok.injEq] at hd
          obtain ⟨rfl, rfl⟩ := hd
          constructor
          · intro he
            simp [runCached, hget, hrn, isNull_null_eq, hn, he]
          · intro he
            simp [runCached, hget, hrn, isNull_null_eq, hn, he]
  · intro v hget hvn
    refine ⟨?_, ?_, ?_⟩
    · intro a
      simp [runCached, hget, hvn]
    · simp [runCached, hget, hvn]
    · intro hvo
      have hty : (v.typeName == "object") = true := by
        cases v <;> simp_all [JsValue.isObj, JsValue.typeName]
      simp [runCached, hget, hvn, hty]

/-- Witness for C4: a miss against a client that stores nothing and a
hit returning a mapping, on a plain method resolving `true`. -/
theorem runCached_miss_and_hit_witness :
    (missCacheSpec.get (getCacheKey missCacheSpec sessionOnlyArgs metaFooDirect) =
      .ok .null) ∧
    PipeEvent.implCall sessionOnlyArgs ∈
      (runCached missCacheSpec sessionOnlyArgs metaFooDirect).2 ∧
    (runCached missCacheSpec sessionOnlyArgs metaFooDirect).1 =
      (runNotCached sessionOnlyArgs metaFooDirect).1 ∧
    (runCached (hitCacheSpec (.obj .nil)) sessionOnlyArgs metaFooDirect).1 =
      .ok ((JsValue.obj .nil).set "_cached"
        (.str (getCacheKey (hitCacheSpec (.obj .nil)) sessionOnlyArgs metaFooDirect))) :=
  ⟨rfl,
   ((runCached_miss_and_hit missCacheSpec sessionOnlyArgs metaFooDirect _ rfl).1 rfl).1,
   ((runCached_miss_and_hit missCacheSpec sessionOnlyArgs metaFooDirect _ rfl).1 rfl).2.1,
   ((runCached_miss_and_hit (hitCacheSpec (.obj .nil)) sessionOnlyArgs metaFooDirect _
      rfl).2 (.obj .nil) rfl rfl).2.2 rfl⟩

/-- **C5**: a `get` rejection is handled exactly like a miss — the
direct path runs, its non-null result is persisted, the call resolves
with the direct result, and the `get` rejection itself never becomes the
call's failure (the final outcome does not depend on the rejection). -/
theorem runCached_get_rejection_is_miss (cache : CacheSpec) (args : JsValue)
    (m : MethodMeta) (key : String) (e : JsError)
    (hkey : key = match cache.keyMethod with
      | some keyMethod => keyMethod args
      | none => getCacheKey cache args m)
    (hget : cache.get key = .error e) :
    (runCached cache args m).1 = (runNotCached args m).1 ∧
    PipeEvent.implCall args ∈ (runCached cache args m).2 ∧
    (∀ d, (runNotCached args m).1 = .ok d → (runCached cache args m).1 = .ok d) ∧
    (∀ d ev, runNotCached args m = (.ok d, ev) → d.isNull = false →
      ((cache.expire.truthy = true →
          PipeEvent.cacheSetex key d cache.expire ∈ (runCached cache args m).2) ∧
       (cache.expire.truthy = false →
          PipeEvent.cacheSet key d ∈ (runCached cache args m).2))) := by
  subst hkey
  have himpl := implCall_mem_runNotCached args m
  rcases hrn : runNotCached args m with ⟨r, ev⟩
  rw [hrn] at himpl
  refine ⟨?_, ?_, ?_, ?_⟩
  · cases r with
    | error e' => simp [runCached, hget, hrn]
    | ok d =>
        cases hdn : d.isNull <;> cases he : cache.expire.truthy <;>
          simp [runCached, hget, hrn, hdn, he]
  · cases r with
    | error e' => simp [runCached, hget, hrn, himpl]
    | ok d =>
        cases hdn : d.isNull <;> cases he : cache.expire.truthy <;>
          simp [runCached, hget, hrn, hdn, he, himpl]
  · intro d hd
    cases r with
    | error e' => exact absurd hd (by simp)
    | ok d' =>
        simp only [Except.ok.injEq] at hd
        subst hd
        cases hdn : d'.isNull <;> cases he : cache.expire.truthy <;>
          simp [runCached, hget, hrn, hdn, he]
  · intro d' ev' hd hn
    cases r with
    | error e' => exact absurd hd (by simp)
    | ok d =>
        simp only [Prod.mk.injEq, Except.ok.injEq] at hd
        obtain ⟨rfl, rfl⟩ := hd
        constructor
        · intro he
          simp [runCached, hget, hrn, hn, he]
        · intro he
          simp [runCached, hget, hrn, hn, he]

/-- Witness for C5: a rejecting cache client on a plain method. -/
theorem runCached_get_rejection_is_miss_witness :
    (runCached (errCacheSpec ⟨"backend down", .undef⟩) sessionOnlyArgs metaFooDirect).1 =
      (runNotCached sessionOnlyArgs metaFooDirect).1 ∧
    PipeEvent.implCall sessionOnlyArgs ∈
      (runCached (errCacheSpec ⟨"backend down", .undef⟩) sessionOnlyArgs metaFooDirect).2 :=
  ⟨(runCached_get_rejection_is_miss (errCacheSpec ⟨"backend down", .undef⟩)
      sessionOnlyArgs metaFooDirect _ ⟨"backend down", .undef⟩ rfl rfl).1,
   (runCached_get_rejection_is_miss (errCacheSpec ⟨"backend down", .undef⟩)
      sessionOnlyArgs metaFooDirect _ ⟨"backend down", .undef⟩ rfl rfl).2.1⟩

/-! ## Detached extensions -/

theorem methodWrapperFunction_fst (m : MethodMeta) (args0 : JsValue)
    (bs bt : Option String) (extra : Bool) (uid : UniqueId) :
    (methodWrapperFunction m args0 bs bt extra uid).1 =
      wrapperResult m args0 bs bt extra uid := by
  unfold methodWrapperFunction wrapperResult
  split
  · rfl
  · cases hgv : getValidArgs args0 bt uid m with
    | error e => rfl
    | ok p =>
        obtain ⟨c, args1⟩ := p
        dsimp only
        rcases hrb : runBefore (args1.set "session" ((args1.get "session").set "stack"
          (pushFrame ((args1.get "session").get "stack")
            (if isBindType bt then
              m.signature ++ "," ++ bt.getD "" ++ "," ++ bs.getD ""
            else m.signature)))) m with ⟨rb, evb⟩
        cases rb with
        | error e => rfl
        | ok args3 =>
            dsimp only
            cases hva : validateArgs args3 m with
            | error e => rfl
            | ok args4 =>
                dsimp only
                cases hc : m.cache with
                | some cache =>
                    rcases hrc : runCached cache args4 m with ⟨ret0, evI⟩
                    cases hrw : runWithBefore args4 m with
                    | none =>
                        rcases hra : runAfter args4 m ret0 with ⟨ret2, evA⟩
                        simp [hra]
                    | some ws =>
                        obtain ⟨w1, w2⟩ := ws
                        rcases hra : runAfter args4 m (runWithAfter ret0 w1) with ⟨ret2, evA⟩
                        simp [hra]
                | none =>
                    rcases hrc : runNotCached args4 m with ⟨ret0, evI⟩
                    cases hrw : runWithBefore args4 m with
                    | none =>
                        rcases hra : runAfter args4 m ret0 with ⟨ret2, evA⟩
                        simp [hra]
                    | some ws =>
                        obtain ⟨w1, w2⟩ := ws
                        rcases hra : runAfter args4 m (runWithAfter ret0 w1) with ⟨ret2, evA⟩
                        simp [hra]

/-- **C6**: a rejection of any `beforeDetach`, `afterDetach` or
`withDetach` extension never causes the primary call to reject and never
changes its resolved value — the settled result equals that of the same
method with all detached lists cleared, because the detached runners
contribute no value to the promise chain. A detached failure is reported
through the log client's `error` operation when a log client is
configured and is silently discarded otherwise. -/
theorem detached_failures_non_blocking :
    (∀ (m : MethodMeta) (args0 : JsValue) (bs bt : Option String) (extra : Bool)
        (uid : UniqueId),
        (methodWrapperFunction m args0 bs bt extra uid).1 =
          (methodWrapperFunction (stripDetach m) args0 bs bt extra uid).1) ∧
    (∀ (m : MethodMeta) (args : JsValue),
        runBeforeDetach args m =
          runDetachedExts m.beforeDetach args m.signature "beforeDetach" m.logClient) ∧
    (∀ (exts : List ExtFun) (args : JsValue) (signature bindType : String)
        (ext : ExtFun) (e : JsError) (ev : List PipeEvent),
        ext args signature bindType = (.error e, ev) →
        runDetachedExts (ext :: exts) args signature bindType true =
          .extCall bindType args :: ev ++ [.logError e.message] ++
            runDetachedExts exts args signature bindType true) ∧
    (∀ (exts : List ExtFun) (args : JsValue) (signature bindType : String)
        (ext : ExtFun) (e : JsError) (ev : List PipeEvent),
        ext args signature bindType = (.error e, ev) →
        runDetachedExts (ext :: exts) args signature bindType false =
          .extCall bindType args :: ev ++
            runDetachedExts exts args signature bindType false) ∧
    (∀ (m : MethodMeta) (args res : JsValue),
        m.afterDetach.isEmpty = false →
        runAfterDetach args m (.ok res) =
          runDetachedExts m.afterDetach (afterDetachExtArgs args res) m.signature
            "afterDetach" m.logClient) := by
  refine ⟨?_, ?_, ?_, ?_, ?_⟩
  · intro m args0 bs bt extra uid
    rw [methodWrapperFunction_fst, methodWrapperFunction_fst]
    rfl
  · intro m args
    rfl
  · intro exts args signature bindType ext e ev hext
    simp [runDetachedExts, hext]
  · intro exts args signature bindType ext e ev hext
    simp [runDetachedExts, hext]
  · intro m args res hne
    simp [runAfterDetach, hne]

/-- Witness for C6: a method whose single `afterDetach` extension
rejects still resolves with the implementation's value, and the failure
is logged exactly when a log client is configured. -/
theorem detached_failures_non_blocking_witness :
    (methodWrapperFunction
        { metaFooDirect with
            afterDetach := [fun _ _ _ => (.error ⟨"boom", .undef⟩, [])] }
        sessionOnlyArgs none none false uid0).1 =
      (methodWrapperFunction
        (stripDetach { metaFooDirect with
            afterDetach := [fun _ _ _ => (.error ⟨"boom", .undef⟩, [])] })
        sessionOnlyArgs none none false uid0).1 ∧
    runDetachedExts [fun _ _ _ => (.error ⟨"boom", .undef⟩, [])] sessionOnlyArgs
        "FooModule.foo" "afterDetach" true =
      .extCall "afterDetach" sessionOnlyArgs :: [] ++ [.logError "boom"] ++
        runDetachedExts [] sessionOnlyArgs "FooModule.foo" "afterDetach" true ∧
    runDetachedExts [fun _ _ _ => (.error ⟨"boom", .undef⟩, [])] sessionOnlyArgs
        "FooModule.foo" "afterDetach" false =
      .extCall "afterDetach" sessionOnlyArgs :: [] ++
        runDetachedExts [] sessionOnlyArgs "FooModule.foo" "afterDetach" false :=
  ⟨detached_failures_non_blocking.1
      { metaFooDirect with
          afterDetach := [fun _ _ _ => (.error ⟨"boom", .undef⟩, [])] }
      sessionOnlyArgs none none false uid0,
   detached_failures_non_blocking.2.2.1 [] sessionOnlyArgs "FooModule.foo" "afterDetach"
      (fun _ _ _ => (.error ⟨"boom", .undef⟩, [])) ⟨"boom", .undef⟩ [] rfl,
   detached_failures_non_blocking.2.2.2.1 [] sessionOnlyArgs "FooModule.foo" "afterDetach"
      (fun _ _ _ => (.error ⟨"boom", .undef⟩, [])) ⟨"boom", .undef⟩ [] rfl⟩

/-! ## Registry lemmas (deferred binds) -/

theorem metaGet_metaAppend_self : ∀ (mb : MetaBinds) (key : String × String) (y : String),
    metaGet (metaAppend mb key y) key = metaGet mb key ++ [y]
  | [], key, y => by simp [metaAppend, metaGet]
  | (k, l) :: rest, key, y => by
      by_cases hk : k = key
      · subst hk
        simp [metaAppend, metaGet]
      · simp [metaAppend, metaGet, hk, metaGet_metaAppend_self rest key y]

theorem metaGet_metaAppend_ne : ∀ (mb : MetaBinds) (key key' : String × String)
    (y : String), key' ≠ key → metaGet (metaAppend mb key y) key' = metaGet mb key'
  | [], key, key', y, hne => by simp [metaAppend, metaGet, Ne.symm hne]
  | (k, l) :: rest, key, key', y, hne => by
      by_cases hk : k = key
      · subst hk
        simp [metaAppend, metaGet, Ne.symm hne]
      · simp [metaAppend, metaGet, hk, metaGet_metaAppend_ne rest key key' y hne]

theorem applyBinds_fst (sig : String) : ∀ (binds : List BindEntry) (mb : MetaBinds),
    (applyBinds sig binds mb).1 =
      binds.map (fun e => if e.target = sig then { e with bound := true } else e)
  | [], _ => rfl
  | e :: rest, mb => by
      by_cases ht : e.target = sig
      · cases hb : e.bound with
        | false =>
            have hstep : (applyBinds sig (e :: rest) mb).1 =
                { e with bound := true } ::
                  (applyBinds sig rest (metaAppend mb (e.target, e.bindType) e.extSig)).1 := by
              simp [applyBinds, ht, hb]
            rw [hstep,
              applyBinds_fst sig rest (metaAppend mb (e.target, e.bindType) e.extSig)]
            simp [ht]
        | true =>
            have he : (⟨sig, e.bindType, e.extSig, true⟩ : BindEntry) = e := by
              cases e
              simp_all
            have hstep : (applyBinds sig (e :: rest) mb).1 =
                e :: (applyBinds sig rest mb).1 := by
              simp [applyBinds, ht, hb]
            rw [hstep, applyBinds_fst sig rest mb]
            simp [ht, he]
      · have hstep : (applyBinds sig (e :: rest) mb).1 =
            e :: (applyBinds sig rest mb).1 := by
          simp [applyBinds, ht]
        rw [hstep, applyBinds_fst sig rest mb]
        simp [ht]

theorem applyBinds_snd_count (sig : String) :
    ∀ (binds : List BindEntry) (mb : MetaBinds) (t ty x : String),
    (metaGet (applyBinds sig binds mb).2 (t, ty)).count x =
      (metaGet mb (t, ty)).count x +
        binds.countP (fun e => entryMatches t ty x e && !e.bound && e.target == sig)
  | [], _, _, _, _ => by simp [applyBinds]
  | e :: rest, mb, t, ty, x => by
      by_cases hcond : (e.target = sig ∧ e.bound = false)
      · obtain ⟨ht, hb⟩ := hcond
        have hstep : (applyBinds sig (e :: rest) mb).2 =
            (applyBinds sig rest (metaAppend mb (e.target, e.bindType) e.extSig)).2 := by
          simp [applyBinds, ht, hb]
        rw [hstep, applyBinds_snd_count sig rest
          (metaAppend mb (e.target, e.bindType) e.extSig) t ty x]
        by_cases h1 : e.target = t
        · by_cases h2 : e.bindType = ty
          · rw [show ((t, ty) : String × String) = (e.target, e.bindType) by rw [h1, h2],
              metaGet_metaAppend_self]
            by_cases hx : e.extSig = x
            · have hts : t = sig := h1 ▸ ht
              have hm : (entryMatches t ty x e && !e.bound && e.target == sig) = true := by
                simp [entryMatches, h1, h2, hx, hb, ht, hts]
              simp [List.countP_cons, hm, List.count_append, List.count_cons, hx]
              omega
            · have hm : (entryMatches t ty x e && !e.bound && e.target == sig) = false := by
                simp [entryMatches, hx]
              simp [List.countP_cons, hm, List.count_append, List.count_cons, hx]
          · rw [metaGet_metaAppend_ne mb (e.target, e.bindType) (t, ty) e.extSig
              (by simp [Ne.symm h2])]
            have hm : (entryMatches t ty x e && !e.bound && e.target == sig) = false := by
              simp [entryMatches, h2]
            simp [List.countP_cons, hm]
        · rw [metaGet_metaAppend_ne mb (e.target, e.bindType) (t, ty) e.extSig
            (by simp [Ne.symm h1])]
          have hm : (entryMatches t ty x e && !e.bound && e.target == sig) = false := by
            simp [entryMatches, h1]
          simp [List.countP_cons, hm]
      · have hcond' : (decide (e.target = sig) && !e.bound) = false := by
          by_cases ht : e.target = sig
          · cases hbb : e.bound with
            | true => simp
            | false => exact absurd ⟨ht, hbb⟩ hcond
          · simp [ht]
        have hstep : (applyBinds sig (e :: rest) mb).2 = (applyBinds sig rest mb).2 := by
          simp [applyBinds, hcond']
        rw [hstep, applyBinds_snd_count sig rest mb t ty x]
        have hm : (entryMatches t ty x e && !e.bound && e.target == sig) = false := by
          by_cases ht : e.target = sig
          · cases hbb : e.bound with
            | true => simp [hbb]
            | false => exact absurd ⟨ht, hbb⟩ hcond
          · simp [ht]
        simp [List.countP_cons, hm]

theorem entryMatches_update (t ty x : String) (e : BindEntry) :
    entryMatches t ty x { e with bound := true } = entryMatches t ty x e := rfl

theorem countP_map_boundify (sig t ty x : String) : ∀ (l : List BindEntry),
    (l.map (fun e => if e.target = sig then { e with bound := true } else e)).countP
        (fun e => entryMatches t ty x e && e.bound) =
      l.countP (fun e => entryMatches t ty x e && e.bound) +
        l.countP (fun e => entryMatches t ty x e && !e.bound && e.target == sig)
  | [] => rfl
  | e :: l => by
      obtain ⟨a, b, c, bd⟩ := e
      rw [List.map_cons, List.countP_cons, List.countP_cons, List.countP_cons,
        countP_map_boundify sig t ty x l]
      by_cases ht : a = sig
      · subst ht
        by_cases h1 : t = a
        · subst h1
          by_cases h2 : b = ty <;> by_cases h3 : c = x <;> cases bd <;>
            simp [entryMatches, h2, h3] <;> omega
        · by_cases h2 : b = ty <;> by_cases h3 : c = x <;> cases bd <;>
            simp [entryMatches, h2, h3, Ne.symm h1] <;> omega
      · by_cases h1 : a = t
        · subst h1
          by_cases h2 : b = ty <;> by_cases h3 : c = x <;> cases bd <;>
            simp [entryMatches, h2, h3, ht] <;> omega
        · by_cases h2 : b = ty <;> by_cases h3 : c = x <;> cases bd <;>
            simp [entryMatches, h1, h2, h3, ht] <;> omega

theorem countP_map_matches (sig t ty x : String) : ∀ (l : List BindEntry),
    (l.map (fun e => if e.target = sig then { e with bound := true } else e)).countP
      (entryMatches t ty x) = l.countP (entryMatches t ty x)
  | [] => rfl
  | e :: l => by
      obtain ⟨a, b, c, bd⟩ := e
      rw [List.map_cons, List.countP_cons, List.countP_cons,
        countP_map_matches sig t ty x l]
      by_cases ht : a = sig <;> simp [ht, entryMatches]

/-- `doBindForMethod` restores the registry invariant; the
applied-iff-defined direction for the signature being applied is
re-established even when the input only satisfies it away from that
signature (the transient state during `bind`). -/
theorem doBindForMethod_RegInv (sig : String) (reg : Registry)
    (hA : ∀ t ty x : String, (metaGet reg.metaBinds (t, ty)).count x =
        reg.binds.countP (fun e => entryMatches t ty x e && e.bound))
    (hB : ∀ t ty x : String, reg.binds.countP (entryMatches t ty x) ≤ 1)
    (hC1 : ∀ e ∈ reg.binds, e.bound = true → e.target ∈ reg.methods)
    (hC2w : ∀ e ∈ reg.binds, e.target ∈ reg.methods → e.target ≠ sig → e.bound = true) :
    RegInv (doBindForMethod sig reg) := by
  unfold doBindForMethod
  by_cases hm : sig ∈ reg.methods
  · rcases hab : applyBinds sig reg.binds reg.metaBinds with ⟨binds', mb'⟩
    have hb' : binds' = reg.binds.map
        (fun e => if e.target = sig then { e with bound := true } else e) := by
      rw [← applyBinds_fst sig reg.binds reg.metaBinds, hab]
    have hm' : ∀ t ty x : String, (metaGet mb' (t, ty)).count x =
        (metaGet reg.metaBinds (t, ty)).count x +
          reg.binds.countP (fun e => entryMatches t ty x e && !e.bound && e.target == sig) := by
      intro t ty x
      rw [← applyBinds_snd_count sig reg.binds reg.metaBinds t ty x, hab]
    simp only [hm, if_true, hab]
    refine ⟨?_, ?_, ?_, ?_⟩
    · intro t ty x
      simp only [hm' t ty x, hb', countP_map_boundify, hA t ty x]
    · intro t ty x
      simp only [hb', countP_map_matches]
      exact hB t ty x
    · intro e' he' hbd
      rw [hb'] at he'
      obtain ⟨e, he, hfe⟩ := List.mem_map.mp he'
      by_cases ht : e.target = sig
      · rw [← hfe]
        simp [ht, hm]
      · rw [← hfe] at hbd ⊢
        simp only [ht, if_false] at hbd ⊢
        exact hC1 e he hbd
    · intro e' he' htm
      rw [hb'] at he'
      obtain ⟨e, he, hfe⟩ := List.mem_map.mp he'
      by_cases ht : e.target = sig
      · rw [← hfe]
        simp [ht]
      · rw [← hfe] at htm ⊢
        simp only [ht, if_false] at htm ⊢
        exact hC2w e he htm ht
  · simp only [hm, if_false]
    refine ⟨hA, hB, hC1, ?_⟩
    intro e he htm
    by_cases ht : e.target = sig
    · rw [ht] at htm
      exact absurd htm hm
    · exact hC2w e he htm ht

/-- `doBindForMethod` preserves the presence of a registration. -/
theorem doBindForMethod_mem (sig : String) (reg : Registry) (t ty x : String)
    (h : ∃ e ∈ reg.binds, entryMatches t ty x e = true) :
    ∃ e ∈ (doBindForMethod sig reg).binds, entryMatches t ty x e = true := by
  obtain ⟨e, he, hme⟩ := h
  unfold doBindForMethod
  by_cases hm : sig ∈ reg.methods
  · rcases hab : applyBinds sig reg.binds reg.metaBinds with ⟨binds', mb'⟩
    have hb' : binds' = reg.binds.map
        (fun e => if e.target = sig then { e with bound := true } else e) := by
      rw [← applyBinds_fst sig reg.binds reg.metaBinds, hab]
    simp only [hm, if_true, hab]
    refine ⟨if e.target = sig then { e with bound := true } else e, ?_, ?_⟩
    · rw [hb']
      exact List.mem_map.mpr ⟨e, he, rfl⟩
    · by_cases ht : e.target = sig
      · simp only [ht, if_true]
        simp [entryMatches, ht] at hme ⊢
        exact hme
      · simp [ht, hme]
  · simp only [hm, if_false]
    exact ⟨e, he, hme⟩

/-- `bind` queues an unbound entry (rejecting duplicates) and applies it
immediately when the target is already defined; the invariant is
restored and the registration is present afterwards. -/
theorem bindOp_ok (ty0 t0 x0 : String) (reg reg' : Registry) (hInv : RegInv reg)
    (h : bindOp ty0 t0 x0 reg = .ok reg') :
    RegInv reg' ∧
    (∀ t ty x : String, (∃ e ∈ reg.binds, entryMatches t ty x e = true) →
      ∃ e' ∈ reg'.binds, entryMatches t ty x e' = true) ∧
    (∃ e ∈ reg'.binds, entryMatches t0 ty0 x0 e = true) := by
  obtain ⟨hA, hB, hC1, hC2⟩ := hInv
  unfold bindOp at h
  by_cases hany : (reg.binds.any fun e =>
      e.target = t0 && e.bindType = ty0 && e.extSig = x0) = true
  · rw [if_pos hany] at h
    exact absurd h (by simp)
  · rw [if_neg hany] at h
    have hnone : ∀ e ∈ reg.binds, ¬ entryMatches t0 ty0 x0 e = true := by
      intro e he hm
      apply hany
      rw [List.any_eq_true]
      refine ⟨e, he, ?_⟩
      simp only [entryMatches, Bool.and_eq_true, beq_iff_eq] at hm
      simp [hm.1.1, hm.1.2, hm.2]
    simp only [Except.ok.injEq] at h
    subst h
    have hA1 : ∀ t ty x : String,
        (metaGet reg.metaBinds (t, ty)).count x =
          (reg.binds ++ [(⟨t0, ty0, x0, false⟩ : BindEntry)]).countP
            (fun e => entryMatches t ty x e && e.bound) := by
      intro t ty x
      rw [List.countP_append, hA t ty x]
      simp
    have hB1 : ∀ t ty x : String,
        (reg.binds ++ [(⟨t0, ty0, x0, false⟩ : BindEntry)]).countP
          (entryMatches t ty x) ≤ 1 := by
      intro t ty x
      rw [List.countP_append]
      by_cases heq : t0 = t ∧ ty0 = ty ∧ x0 = x
      · obtain ⟨rfl, rfl, rfl⟩ := heq
        have hz : reg.binds.countP (entryMatches t0 ty0 x0) = 0 :=
          List.countP_eq_zero.mpr hnone
        simp [hz, entryMatches]
      · have hz : entryMatches t ty x (⟨t0, ty0, x0, false⟩ : BindEntry) = false := by
          by_cases h1 : t0 = t
          · by_cases h2 : ty0 = ty
            · have h3 : ¬ x0 = x := fun h3 => heq ⟨h1, h2, h3⟩
              simp [entryMatches, h3]
            · simp [entryMatches, h2]
          · simp [entryMatches, h1]
        simp only [List.countP_cons, List.countP_nil, hz]
        simpa using hB t ty x
    have hC1a : ∀ e ∈ reg.binds ++ [(⟨t0, ty0, x0, false⟩ : BindEntry)],
        e.bound = true → e.target ∈ reg.methods := by
      intro e he hbd
      rcases List.mem_append.mp he with he | he
      · exact hC1 e he hbd
      · simp only [List.mem_singleton] at he
        subst he
        simp at hbd
    have hC2a : ∀ e ∈ reg.binds ++ [(⟨t0, ty0, x0, false⟩ : BindEntry)],
        e.target ∈ reg.methods → e.target ≠ t0 → e.bound = true := by
      intro e he htm hne
      rcases List.mem_append.mp he with he | he
      · exact hC2 e he htm
      · simp only [List.mem_singleton] at he
        subst he
        exact absurd rfl hne
    refine ⟨?_, ?_, ?_⟩
    · exact doBindForMethod_RegInv t0
        { reg with binds := reg.binds ++ [⟨t0, ty0, x0, false⟩] } hA1 hB1 hC1a hC2a
    · intro t ty x hex
      obtain ⟨e, he, hme⟩ := hex
      exact doBindForMethod_mem t0 _ t ty x ⟨e, List.mem_append_left _ he, hme⟩
    · exact doBindForMethod_mem t0 _ t0 ty0 x0
        ⟨⟨t0, ty0, x0, false⟩,
         List.mem_append_right _ (List.mem_singleton.mpr rfl),
         by simp [entryMatches]⟩

/-- `getMethod`/`getModule` definition records the signature and applies
all queued binds for it; the invariant is restored and registrations are
preserved. -/
theorem defineMethod_ok (s : String) (reg reg' : Registry) (hInv : RegInv reg)
    (h : defineMethod s reg = .ok reg') :
    RegInv reg' ∧
    ∀ t ty x : String, (∃ e ∈ reg.binds, entryMatches t ty x e = true) →
      ∃ e' ∈ reg'.binds, entryMatches t ty x e' = true := by
  obtain ⟨hA, hB, hC1, hC2⟩ := hInv
  unfold defineMethod at h
  by_cases hm : s ∈ reg.methods
  · rw [if_pos hm] at h
    exact absurd h (by simp)
  · rw [if_neg hm] at h
    simp only [Except.ok.injEq] at h
    subst h
    refine ⟨doBindForMethod_RegInv s { reg with methods := reg.methods ++ [s] }
        hA hB ?_ ?_, ?_⟩
    · intro e he hbd
      exact List.mem_append_left _ (hC1 e he hbd)
    · intro e he htm hne
      rcases List.mem_append.mp htm with htm | htm
      · exact hC2 e he htm
      · simp only [List.mem_singleton] at htm
        exact absurd htm hne
    · intro t ty x hex
      exact doBindForMethod_mem s _ t ty x hex

/-- Running any operation sequence from an invariant state lands in an
invariant state, and every registration — pre-existing or made by a
`bind` in the sequence — is present in the final binds store. -/
theorem applyOps_RegInv : ∀ (ops : List RegOp) (reg0 reg : Registry),
    RegInv reg0 → applyOps reg0 ops = .ok reg →
    RegInv reg ∧
    ∀ t ty x : String,
      ((∃ e ∈ reg0.binds, entryMatches t ty x e = true) ∨ RegOp.bind ty t x ∈ ops) →
      ∃ e ∈ reg.binds, entryMatches t ty x e = true
  | [], reg0, reg, hInv, hrun => by
      simp only [applyOps, Except.ok.injEq] at hrun
      subst hrun
      refine ⟨hInv, ?_⟩
      intro t ty x h
      rcases h with h | h
      · exact h
      · simp at h
  | .bind ty0 t0 x0 :: ops, reg0, reg, hInv, hrun => by
      rw [applyOps] at hrun
      cases hb : bindOp ty0 t0 x0 reg0 with
      | error e =>
          rw [hb] at hrun
          exact absurd hrun (by simp)
      | ok reg1 =>
          rw [hb] at hrun
          obtain ⟨hInv1, hpres, hnew⟩ := bindOp_ok ty0 t0 x0 reg0 reg1 hInv hb
          obtain ⟨hInvf, hexf⟩ := applyOps_RegInv ops reg1 reg hInv1 hrun
          refine ⟨hInvf, ?_⟩
          intro t ty x h
          rcases h with h | h
          · exact hexf t ty x (Or.inl (hpres t ty x h))
          · rcases List.mem_cons.mp h with heq | hmem
            · injection heq with e1 e2 e3
              subst e1
              subst e2
              subst e3
              exact hexf t ty x (Or.inl hnew)
            · exact hexf t ty x (Or.inr hmem)
  | .defineMethod s :: ops, reg0, reg, hInv, hrun => by
      rw [applyOps] at hrun
      cases hd : defineMethod s reg0 with
      | error e =>
          rw [hd] at hrun
          exact absurd hrun (by simp)
      | ok reg1 =>
          rw [hd] at hrun
          obtain ⟨hInv1, hpres⟩ := defineMethod_ok s reg0 reg1 hInv hd
          obtain ⟨hInvf, hexf⟩ := applyOps_RegInv ops reg1 reg hInv1 hrun
          refine ⟨hInvf, ?_⟩
          intro t ty x h
          rcases h with h | h
          · exact hexf t ty x (Or.inl (hpres t ty x h))
          · rcases List.mem_cons.mp h with heq | hmem
            · exact absurd heq (by simp)
            · exact hexf t ty x (Or.inr hmem)
  | .applyPass s :: ops, reg0, reg, hInv, hrun => by
      rw [applyOps] at hrun
      obtain ⟨hA, hB, hC1, hC2⟩ := hInv
      have hInv1 : RegInv (doBindForMethod s reg0) :=
        doBindForMethod_RegInv s reg0 hA hB hC1 (fun e he htm _ => hC2 e he htm)
      obtain ⟨hInvf, hexf⟩ := applyOps_RegInv ops (doBindForMethod s reg0) reg hInv1 hrun
      refine ⟨hInvf, ?_⟩
      intro t ty x h
      rcases h with h | h
      · exact hexf t ty x (Or.inl (doBindForMethod_mem s reg0 t ty x h))
      · rcases List.mem_cons.mp h with heq | hmem
        · exact absurd heq (by simp)
        · exact hexf t ty x (Or.inr hmem)

/-- **C9**: an extension registered against a target signature — before
or after the target is defined — is queued in the binds store and is in
the target's extension list exactly once as soon as the target method is
defined (so it is active on the first call), and exactly zero times
before: no binding is missed, and arbitrarily many further definitions
and apply passes never apply a binding twice. -/
theorem deferred_bind_applied_exactly_once (ops : List RegOp) (reg : Registry)
    (t ty x : String)
    (hrun : applyOps emptyRegistry ops = .ok reg)
    (hbind : RegOp.bind ty t x ∈ ops) :
    (∃ e ∈ reg.binds, e.target = t ∧ e.bindType = ty ∧ e.extSig = x ∧
        (e.bound = true ↔ t ∈ reg.methods)) ∧
    (t ∈ reg.methods → (metaGet reg.metaBinds (t, ty)).count x = 1) ∧
    (t ∉ reg.methods → (metaGet reg.metaBinds (t, ty)).count x = 0) := by
  have hInv0 : RegInv emptyRegistry := by
    refine ⟨?_, ?_, ?_, ?_⟩ <;> simp [emptyRegistry, metaGet]
  obtain ⟨⟨hA, hB, hC1, hC2⟩, hex⟩ := applyOps_RegInv ops emptyRegistry reg hInv0 hrun
  obtain ⟨e, he, hme⟩ := hex t ty x (Or.inr hbind)
  have hfields : e.target = t ∧ e.bindType = ty ∧ e.extSig = x := by
    simpa [entryMatches, and_assoc] using hme
  obtain ⟨hf1, hf2, hf3⟩ := hfields
  refine ⟨⟨e, he, hf1, hf2, hf3, ?_⟩, ?_, ?_⟩
  · constructor
    · intro hbd
      exact hf1 ▸ hC1 e he hbd
    · intro htm
      exact hC2 e he (by rw [hf1]; exact htm)
  · intro htm
    have hbd : e.bound = true := hC2 e he (by rw [hf1]; exact htm)
    have hub : reg.binds.countP (fun e => entryMatches t ty x e && e.bound) ≤
        reg.binds.countP (entryMatches t ty x) := by
      apply List.countP_mono_left
      intro a _ h
      simp only [Bool.and_eq_true] at h
      exact h.1
    have hlb : 0 < reg.binds.countP (fun e => entryMatches t ty x e && e.bound) := by
      apply List.countP_pos_iff.mpr
      exact ⟨e, he, by simp [hme, hbd]⟩
    have hub2 := hB t ty x
    rw [hA t ty x]
    omega
  · intro htm
    rw [hA t ty x]
    apply List.countP_eq_zero.mpr
    intro e' he' hp
    simp only [Bool.and_eq_true] at hp
    obtain ⟨hm', hb'⟩ := hp
    have ht' : e'.target = t := by
      have := (by simpa [entryMatches, and_assoc] using hm' :
        e'.target = t ∧ e'.bindType = ty ∧ e'.extSig = x)
      exact this.1
    exact htm (ht' ▸ hC1 e' he' hb')

/-- Witness for C9 on the P9 scenario: bind before definition, then
define, then a redundant apply pass — the extension sits in the target's
`before` list exactly once. -/
theorem deferred_bind_applied_exactly_once_witness :
    "FooModule.foo" ∈ scenarioReg.methods ∧
    (metaGet scenarioReg.metaBinds ("FooModule.foo", "before")).count "BarModule.bar" = 1 :=
  ⟨by decide,
   (deferred_bind_applied_exactly_once scenarioOps scenarioReg "FooModule.foo" "before"
      "BarModule.bar" (by decide) (by decide)).2.1 (by decide)⟩

/-- **C10**: a call served from the cache performs none of the direct
path's post-processing — its whole trace is the single `get`, so no
freeze clone, no deep promise resolution and no return validation run,
and the result is the (possibly stamped) cached value — while the direct
path does perform each of those steps when the corresponding option is
set. -/
theorem runCached_hit_skips_postprocessing (cache : CacheSpec) (args : JsValue)
    (m : MethodMeta) (key : String) (v : JsValue)
    (hkey : key = match cache.keyMethod with
      | some keyMethod => keyMethod args
      | none => getCacheKey cache args m)
    (hget : cache.get key = .ok v) (hvn : v.isNull = false) :
    (runCached cache args m).2 = [.cacheGet key] ∧
    (runCached cache args m).1 =
      .ok (if v.typeName == "object" then v.set "_cached" (.str key) else v) ∧
    (m.freeze = true → PipeEvent.freezeArgs ∈ (runNotCached args m).2) ∧
    (∀ r, m.method args = .ok r → m.freeze = true →
      PipeEvent.cloneResult ∈ (runNotCached args m).2) ∧
    (∀ r, m.method args = .ok r → m.resolve = true → (r.typeName == "object") = true →
      r.isNull = false → PipeEvent.deepResolveResult ∈ (runNotCached args m).2) ∧
    (∀ r, m.method args = .ok r → m.hasReturnSchema = true → m.validateArgs = true →
      PipeEvent.validateReturnCall ∈ (runNotCached args m).2) := by
  subst hkey
  refine ⟨?_, ?_, ?_, ?_, ?_, ?_⟩
  · simp [runCached, hget, hvn]
  · simp [runCached, hget, hvn]
  · intro hf
    unfold runNotCached
    cases m.method args <;>
      cases hg : (m.hasReturnSchema && m.validateArgs) <;> simp [hg, hf]
  · intro r hr hf
    unfold runNotCached
    rw [hr]
    cases hg : (m.hasReturnSchema && m.validateArgs) <;> simp [hg, hf]
  · intro r hr hres hty hrn
    unfold runNotCached
    rw [hr]
    cases hg : (m.hasReturnSchema && m.validateArgs) <;> simp [hg, hres, hty, hrn]
  · intro r hr hs hva
    unfold runNotCached
    rw [hr]
    simp [hs, hva]

/-- **C8** (code bug): `runNotCached` guards the return-validation step
with `methodMeta.validateArgs` instead of `methodMeta.validateReturn`.
With a return schema configured, return validation enabled and args
validation disabled, an invalid return value resolves instead of
rejecting — even though `validateReturn` itself, once reached, rejects
with `<signature>: invalid return - <details>` carrying the structured
`ajv.errors` payload, and the same call with args validation enabled
does reject exactly so. -/
theorem validateReturn_guard_uses_validateArgs :
    (methodWrapperFunction returnSchemaMeta sessionOnlyArgs none none false uid0).1 =
      .ok .undef ∧
    validateReturn .undef returnSchemaMeta =
      .error ⟨"FooModule.foo: invalid return - data should have required property foo",
        returnSchemaMeta.ajvErrors⟩ ∧
    (methodWrapperFunction { returnSchemaMeta with validateArgs := true }
        sessionOnlyArgs none none false uid0).1 =
      .error ⟨"FooModule.foo: invalid return - data should have required property foo",
        returnSchemaMeta.ajvErrors⟩ := by
  refine ⟨by decide, by decide, by decide⟩

/-- **C7 counterexample**: in non-strict mode, calling a method with a
mapping args object that has no session property mutates the caller's
object — `getValidArgs` assigns `args.session = {}` onto it before
cloning, so after the call the caller's args has a session property it
did not have before. -/
theorem getValidArgs_mutates_caller_counterexample :
    (match getValidArgs (.obj .nil) none uid0 metaFooDirect with
      | .ok out => out.1
      | .error _ => .undef) = .obj (.cons "session" (.obj .nil) .nil) ∧
    JsValue.obj (.cons "session" (.obj .nil) .nil) ≠ .obj .nil := by
  refine ⟨by decide, by decide⟩

/-- **C7 amended**: the caller's args object is never mutated except in
one case: in non-strict mode, when args is a mapping whose session is
missing or not a mapping, an empty session object is assigned onto the
caller's object before the shallow clone. Whenever the caller's args
already carries a mapping session, or strict mode is on, or args is not
a mapping, the caller's object is unchanged after the call. -/
theorem getValidArgs_caller_args_preserved :
    (∀ (args0 : JsValue) (bt : Option String) (u : UniqueId) (m : MethodMeta)
        (out : JsValue × JsValue),
        notAnObject (args0.get "session") = false →
        getValidArgs args0 bt u m = .ok out → out.1 = args0) ∧
    (∀ (args0 : JsValue) (bt : Option String) (u : UniqueId) (m : MethodMeta)
        (out : JsValue × JsValue),
        m.strictArgs = true →
        getValidArgs args0 bt u m = .ok out → out.1 = args0) ∧
    (∀ (args0 : JsValue) (bt : Option String) (u : UniqueId) (m : MethodMeta)
        (out : JsValue × JsValue),
        notAnObject args0 = true →
        getValidArgs args0 bt u m = .ok out → out.1 = args0) ∧
    (∀ (args0 : JsValue) (bt : Option String) (u : UniqueId) (m : MethodMeta)
        (out : JsValue × JsValue),
        m.strictArgs = false → notAnObject args0 = false →
        notAnObject (args0.get "session") = true →
        getValidArgs args0 bt u m = .ok out →
        out.1 = args0.set "session" (.obj .nil)) := by
  refine ⟨?_, ?_, ?_, ?_⟩
  · intro args0 bt u m out hsess hok
    have hobj : notAnObject args0 = false := by
      cases args0 <;>
        simp_all [notAnObject, JsValue.get, JsValue.truthy, JsValue.typeName]
    rw [getValidArgs, hobj] at hok
    simp only [Bool.false_eq_true, if_false, hsess] at hok
    simp only [Except.ok.injEq] at hok
    rw [← hok]
  · intro args0 bt u m out hstrict hok
    rw [getValidArgs] at hok
    cases hobj : notAnObject args0 with
    | true => rw [hobj] at hok; simp [hstrict] at hok
    | false =>
        rw [hobj] at hok
        cases hsess : notAnObject (args0.get "session") with
        | true => rw [hsess] at hok; simp [hstrict] at hok
        | false =>
            rw [hsess] at hok
            simp only [Bool.false_eq_true, if_false, Except.ok.injEq] at hok
            rw [← hok]
  · intro args0 bt u m out hobj hok
    rw [getValidArgs, hobj] at hok
    cases hstrict : m.strictArgs with
    | true => simp [hstrict] at hok
    | false =>
        simp [hstrict] at hok
        rw [← hok]
  · intro args0 bt u m out hstrict hobj hsess hok
    rw [getValidArgs, hobj] at hok
    simp only [Bool.false_eq_true, if_false, hsess, hstrict, if_true,
      Except.ok.injEq] at hok
    rw [← hok]

/-- Witness for C7's amended theorem, writing `piped` for the cloned and
stamped pipeline args: a caller args carrying a session is returned
untouched (non-strict and strict), a non-mapping caller value is
untouched, and the mutating case returns exactly the caller's object
with an empty session assigned onto it. -/
theorem getValidArgs_caller_args_preserved_witness :
    ((sessionOnlyArgs,
        JsValue.obj (.cons "session" (.obj (.cons "stack" (.strArr [])
          (.cons "moduleCallCreateTime" (.str "ts")
          (.cons "moduleCallId" (.str "uid")
          (.cons "moduleCallSignature" (.str "FooModule.foo") .nil))))) .nil)) :
      JsValue × JsValue).1 = sessionOnlyArgs ∧
    ((sessionOnlyArgs,
        JsValue.obj (.cons "session" (.obj (.cons "stack" (.strArr [])
          (.cons "moduleCallCreateTime" (.str "ts")
          (.cons "moduleCallId" (.str "uid")
          (.cons "moduleCallSignature" (.str "FooModule.foo") .nil))))) .nil)) :
      JsValue × JsValue).1 = sessionOnlyArgs ∧
    ((JsValue.undef,
        JsValue.obj (.cons "session" (.obj (.cons "stack" (.strArr [])
          (.cons "moduleCallCreateTime" (.str "ts")
          (.cons "moduleCallId" (.str "uid")
          (.cons "moduleCallSignature" (.str "FooModule.foo") .nil))))) .nil)) :
      JsValue × JsValue).1 = JsValue.undef ∧
    ((JsValue.obj (.cons "session" (.obj .nil) .nil),
        JsValue.obj (.cons "session" (.obj (.cons "stack" (.strArr [])
          (.cons "moduleCallCreateTime" (.str "ts")
          (.cons "moduleCallId" (.str "uid")
          (.cons "moduleCallSignature" (.str "FooModule.foo") .nil))))) .nil)) :
      JsValue × JsValue).1 = (JsValue.obj .nil).set "session" (.obj .nil) :=
  ⟨getValidArgs_caller_args_preserved.1 sessionOnlyArgs none uid0 metaFooDirect
      _ (by decide) (by decide),
   getValidArgs_caller_args_preserved.2.1 sessionOnlyArgs none uid0
      { metaFooDirect with strictArgs := true } _ (by decide) (by decide),
   getValidArgs_caller_args_preserved.2.2.1 .undef none uid0 metaFooDirect
      _ (by decide) (by decide),
   getValidArgs_caller_args_preserved.2.2.2 (.obj .nil) none uid0 metaFooDirect
      _ (by decide) (by decide) (by decide) (by decide)⟩

/-- Witness for C10: a hit returning a mapping against a method with
freeze, resolve and return validation all enabled. -/
theorem runCached_hit_skips_postprocessing_witness :
    (runCached (hitCacheSpec (.obj .nil)) sessionOnlyArgs
        { metaFooDirect with freeze := true, hasReturnSchema := true }).2 =
      [.cacheGet (getCacheKey (hitCacheSpec (.obj .nil)) sessionOnlyArgs
        { metaFooDirect with freeze := true, hasReturnSchema := true })] ∧
    PipeEvent.freezeArgs ∈
      (runNotCached sessionOnlyArgs
        { metaFooDirect with freeze := true, hasReturnSchema := true }).2 ∧
    PipeEvent.validateReturnCall ∈
      (runNotCached sessionOnlyArgs
        { metaFooDirect with freeze := true, hasReturnSchema := true }).2 :=
  ⟨(runCached_hit_skips_postprocessing (hitCacheSpec (.obj .nil)) sessionOnlyArgs
      { metaFooDirect with freeze := true, hasReturnSchema := true } _ (.obj .nil)
      rfl rfl rfl).1,
   (runCached_hit_skips_postprocessing (hitCacheSpec (.obj .nil)) sessionOnlyArgs
      { metaFooDirect with freeze := true, hasReturnSchema := true } _ (.obj .nil)
      rfl rfl rfl).2.2.1 rfl,
   (runCached_hit_skips_postprocessing (hitCacheSpec (.obj .nil)) sessionOnlyArgs
      { metaFooDirect with freeze := true, hasReturnSchema := true } _ (.obj .nil)
      rfl rfl rfl).2.2.2.2.2 (.bool true) rfl rfl rfl⟩

end ImmutableCore
